import Mathlib

/-!
Shallow embedding of the search pipeline executor
(`backend/airweave/search/executor.py`) of the Airweave repository.

Modelling conventions:

* The shared Python context dictionary is modelled by the structure `Ctx`,
  carrying exactly the keys the executor itself reads or writes.  A key that
  is absent from the dictionary is modelled by `none`.
* An operator (`SearchOperation`) is modelled by `Operation`: a `name`, a
  `depends_on` list, and `run`, which maps the context to the context after
  the call together with `none` (returned normally) or `some msg` (raised
  with message `msg`).  Because Python operators mutate the shared dict in
  place, the context produced by `run` is kept even when the operator raises.
  Wall-clock durations measured by the executor around `op.execute` are
  modelled by the abstract field `time` (the executor's behaviour does not
  depend on the measured value).
* The emitter closure `emit` is modelled by `emitEvent`, acting on the
  executor state `EState` (context, `executed` set, `global_sequence`,
  `op_sequences`, and the list of events handed to `core_pubsub.publish` so
  far).  The pubsub channel itself is outside the repository; the event
  trace records the publish calls the executor makes, in order.
* The `while` scheduler loop is modelled by `schedLoop` with a fuel
  argument; `executeConfig` supplies fuel `operations.length`, which is
  proved sufficient (`schedLoop_no_fuelOut`), so the `fuelOut` branch is
  unreachable for the embedded entry point.
* `SearchConfig` lives in `airweave/schemas/search.py`, which is not part of
  the sources here.  Modelled from the spec: operator slots are
  "each independently populated or null" (spec section 3), so every slot is
  an `Option Operation`; `limit`, `offset` are naturals and `query` a string.
* The analytics service (`airweave/analytics/service.py`) is not part of the
  sources here.  Modelled from the spec: a sink failure is "silently
  dropped" inside the service (spec section 7), so the track-event call
  returns normally in all cases and the recorded `AnalyticsEvent` merely
  carries a `delivered` flag that is false when the sink failed
  (`sinkFails = true`).  Properties that the executor derives from
  wall-clock time or from the ambient `ApiContext` (duration, organization)
  are outside the embedded state and are omitted from `AnalyticsProps`.
* `ctx` (the `ApiContext` argument) is a required, always-truthy object, so
  the `if ctx:` guard around the analytics block is always taken.
* Logging is out of scope except for the scheduler-deadlock warning, whose
  payload (the list of remaining operator names) is recorded in
  `ExecOut.warnings` because a claim refers to it.
-/

/-- The event types the executor publishes (spec section 3). -/
inductive EventType where
  | start
  | operator_start
  | operator_end
  | error
  | results
  | summary
  | done
deriving DecidableEq, Repr

/-- One published event frame: `type`, `seq`, `op`, `op_seq`
(the type-specific payload and the timestamp are not needed by any claim). -/
structure Event where
  type : EventType
  seq : Nat
  op : Option String
  op_seq : Option Nat
deriving DecidableEq, Repr

/-- The `execution_summary` record written by `_finalize_context`. -/
structure ExecSummary where
  operations_executed : Nat
  total_time_ms : Nat
  errors_count : Nat
deriving DecidableEq, Repr

/-- The executor-visible part of the shared context dictionary.
`none` models an absent key. -/
structure Ctx where
  query : String
  request_id : Option String
  streaming_required : Bool
  collection_slug : Option String
  timings : List (String × Nat)
  errors : List (String × String)
  raw_results : Option (List Nat)
  final_results : Option (List Nat)
  execution_summary : Option ExecSummary
deriving DecidableEq, Repr

/-- A search operation: name, dependency list, and one-shot execution.
`run c = (c', none)` models a normal return mutating the context to `c'`;
`run c = (c', some msg)` models the call raising with message `msg` after
having mutated the context to `c'`. -/
structure Operation where
  name : String
  depends_on : List String
  run : Ctx → Ctx × Option String
  time : Nat

/-- Modelled from the spec: `SearchConfig` (`airweave/schemas/search.py` is
not among the sources).  Spec section 3: operator slots, each independently
populated or null; `embedding` and `vector_search` are required by contract
but the record itself can leave them null. -/
structure SearchConfig where
  query : String
  limit : Nat
  offset : Nat
  query_expansion : Option Operation
  query_interpretation : Option Operation
  qdrant_filter : Option Operation
  embedding : Option Operation
  vector_search : Option Operation
  recency : Option Operation
  reranking : Option Operation
  completion : Option Operation

/-- `_initialize_context`: the initial shared context. -/
def initializeContext (config : SearchConfig) : Ctx :=
  { query := config.query
    request_id := none
    streaming_required := false
    collection_slug := none
    timings := []
    errors := []
    raw_results := none
    final_results := none
    execution_summary := none }

/-- Python `dict` assignment `d[k] = v`: update the value in place when the
key exists, otherwise append the pair (insertion order preserved). -/
def dictInsert (d : List (String × Nat)) (k : String) (v : Nat) : List (String × Nat) :=
  if d.any (fun p => p.1 == k) then
    d.map (fun p => if p.1 == k then (k, v) else p)
  else
    d ++ [(k, v)]

/-- Python `set.add`. -/
def setAdd (l : List String) (a : String) : List String :=
  if l.contains a then l else l ++ [a]

/-- Executor state threaded through the run: the shared context, the
`executed` name set, the emitter counters and the published events. -/
structure EState where
  ctx : Ctx
  executed : List String
  gseq : Nat
  opSeqs : List (String × Nat)
  events : List Event

/-- The centralized `emit` closure.  With no `request_id` it is a no-op;
otherwise it increments `global_sequence`, bumps the per-operator counter
when `op_name` is given, and publishes the frame. -/
def emitEvent (rid : Option String) (ty : EventType) (opName : Option String)
    (st : EState) : EState :=
  match rid with
  | none => st
  | some _ =>
    let gs := st.gseq + 1
    match opName with
    | none =>
      { st with gseq := gs, events := st.events ++ [⟨ty, gs, none, none⟩] }
    | some n =>
      let v := (((st.opSeqs.find? (fun p => p.1 == n)).map (fun p => p.2)).getD 0) + 1
      { st with
        gseq := gs
        opSeqs := dictInsert st.opSeqs n v
        events := st.events ++ [⟨ty, gs, some n, some v⟩] }

/-- `_operation_exists`. -/
def operationExists (operations : List Operation) (name : String) : Bool :=
  operations.any (fun op => op.name == name)

/-- `_find_ready_operations`: the not-yet-executed operations whose every
dependency is executed or absent from the plan, kept in plan order. -/
def findReadyOperations (operations : List Operation) (executed : List String) :
    List Operation :=
  operations.filter (fun op =>
    !(executed.contains op.name) &&
    op.depends_on.all (fun dep =>
      executed.contains dep || !(operationExists operations dep)))

/-- The remaining-operation names logged in the scheduler-deadlock warning:
`[op.name for op in operations if op.name not in executed]`. -/
def remainingNames (operations : List Operation) (executed : List String) :
    List String :=
  (operations.filter (fun op => !(executed.contains op.name))).map (fun op => op.name)

/-- The inner `for op in ready` loop of `execute`: emit `operator_start`,
run the operator, record timing and mark executed and emit `operator_end`
on success; on an exception append to `errors`, emit `error` and re-raise
(`.error` carries the state at the raise plus operation name and message). -/
def runBatch (rid : Option String) :
    List Operation → EState → Except (EState × String × String) EState
  | [], st => .ok st
  | op :: rest, st =>
    let st1 := emitEvent rid .operator_start (some op.name) st
    match op.run st1.ctx with
    | (ctx1, none) =>
      let ctx2 := { ctx1 with timings := dictInsert ctx1.timings op.name op.time }
      let st2 := { st1 with ctx := ctx2, executed := setAdd st1.executed op.name }
      let st3 := emitEvent rid .operator_end (some op.name) st2
      runBatch rid rest st3
    | (ctx1, some msg) =>
      let ctx2 := { ctx1 with errors := ctx1.errors ++ [(op.name, msg)] }
      let st2 := { st1 with ctx := ctx2 }
      let st3 := emitEvent rid .error (some op.name) st2
      .error (st3, op.name, msg)

/-- Outcome of the scheduler `while` loop. -/
inductive LoopOut where
  | finished (st : EState)
  | stuck (st : EState) (remaining : List String)
  | failed (st : EState) (operation : String) (message : String)
  | fuelOut (st : EState)

/-- The `while len(executed) < len(operations)` scheduler loop, with fuel.
`fuelOut` is unreachable for the fuel supplied by `executeConfig`
(`schedLoop_no_fuelOut`). -/
def schedLoop (rid : Option String) (operations : List Operation) :
    Nat → EState → LoopOut
  | 0, st =>
    if st.executed.length < operations.length then .fuelOut st else .finished st
  | fuel + 1, st =>
    if st.executed.length < operations.length then
      match findReadyOperations operations st.executed with
      | [] => .stuck st (remainingNames operations st.executed)
      | op :: rest =>
        match runBatch rid (op :: rest) st with
        | .error (st', n, m) => .failed st' n m
        | .ok st' => schedLoop rid operations fuel st'
    else .finished st

/-- `_finalize_context`: default `final_results` from `raw_results` (itself
defaulting to the empty list) when the key is absent, then write
`execution_summary` from `timings` and `errors`. -/
def finalizeContext (context : Ctx) : Ctx :=
  let context :=
    match context.final_results with
    | none => { context with final_results := some (context.raw_results.getD []) }
    | some _ => context
  { context with
    execution_summary := some
      { operations_executed := context.timings.length
        total_time_ms := (context.timings.map (fun p => p.2)).sum
        errors_count := context.errors.length } }

/-- The analytics properties assembled in the `finally` block (the
wall-clock duration and organization fields come from outside the embedded
state and are omitted). -/
structure AnalyticsProps where
  query_length : Nat
  collection_slug : String
  search_type : String
  status : String
  results_count : Option Nat
deriving DecidableEq, Repr, Inhabited

/-- One call to `analytics.track_event`.  `delivered` is false when the
downstream sink failed; modelled from the spec (section 7): the service
drops sink failures internally, so the call itself returns normally. -/
structure AnalyticsEvent where
  event_name : String
  props : AnalyticsProps
  delivered : Bool
deriving DecidableEq, Repr, Inhabited

/-- The `search_query` analytics event recorded in the `finally` block:
`results_count` is added only when `context.get("final_results")` is truthy
(present and non-empty). -/
def trackSearchQuery (context : Ctx) (rid : Option String) (sinkFails : Bool) :
    AnalyticsEvent :=
  { event_name := "search_query"
    props :=
      { query_length := context.query.length
        collection_slug := context.collection_slug.getD ""
        search_type := if rid.isSome then "streaming" else "regular"
        status := "success"
        results_count :=
          match context.final_results with
          | some l => if l.isEmpty then none else some l.length
          | none => none }
    delivered := !sinkFails }

/-- How `execute` terminates: normally, or re-raising an operator error, or
with the attribute error hit by the scheduler when a required slot is null. -/
inductive RunError where
  | attrError
  | opError (operation : String) (message : String)
deriving DecidableEq, Repr

/-- Observable outcome of one `execute` call: the final context, the
published events, the deadlock warnings, the analytics calls, the
`executed` set, and the exception (if any) reaching the caller. -/
structure ExecOut where
  ctx : Ctx
  events : List Event
  warnings : List (List String)
  analytics : List AnalyticsEvent
  executedNames : List String
  raised : Option RunError

/-- The `finally` block of `execute`: record the analytics event, then emit
`done`, then return or re-raise. -/
def finishRun (rid : Option String) (sinkFails : Bool) (st : EState)
    (warnings : List (List String)) (raised : Option RunError) : ExecOut :=
  let a := trackSearchQuery st.ctx rid sinkFails
  let st' := emitEvent rid .done none st
  { ctx := st'.ctx
    events := st'.events
    warnings := warnings
    analytics := [a]
    executedNames := st'.executed
    raised := raised }

/-- `_extract_operations_from_config`: optional slots are appended when
populated; `embedding` and `vector_search` are appended unconditionally,
whatever their value. -/
def extractOperationsFromConfig (config : SearchConfig) : List (Option Operation) :=
  (match config.query_expansion with | some op => [some op] | none => []) ++
  (match config.query_interpretation with | some op => [some op] | none => []) ++
  (match config.qdrant_filter with | some op => [some op] | none => []) ++
  [config.embedding] ++
  [config.vector_search] ++
  (match config.recency with | some op => [some op] | none => []) ++
  (match config.reranking with | some op => [some op] | none => []) ++
  (match config.completion with | some op => [some op] | none => [])

/-- The operator plan actually iterated when every required slot is
populated. -/
def planOperations (config : SearchConfig) : List Operation :=
  (extractOperationsFromConfig config).reduceOption

/-- The names of the plan's operators, in plan order. -/
def planNames (config : SearchConfig) : List String :=
  (planOperations config).map (fun op => op.name)

/-- The executor state right after step 2–4 of `execute`: context
initialized (with `request_id` and `streaming_required` attached in
streaming mode), counters zero, and the `start` lifecycle event emitted. -/
def startState (config : SearchConfig) (rid : Option String) : EState :=
  let ctx0 := initializeContext config
  let ctx1 :=
    match rid with
    | some r => { ctx0 with request_id := some r, streaming_required := true }
    | none => ctx0
  emitEvent rid .start none ⟨ctx1, [], 0, [], []⟩

/-- The non-exception tail of `execute`: `_finalize_context`, the `results`
and `summary` events, then the `finally` block. -/
def afterLoop (rid : Option String) (sinkFails : Bool)
    (warnings : List (List String)) (st : EState) : ExecOut :=
  let st2 := { st with ctx := finalizeContext st.ctx }
  let st3 := emitEvent rid .results none st2
  let st4 := emitEvent rid .summary none st3
  finishRun rid sinkFails st4 warnings none

/-- `SearchExecutor.execute`.  When some element of the extracted list is
`None`, the very first `_find_ready_operations` call inside the `try` block
raises an attribute error on `op.name` before any operator has run; the
`finally` block still records analytics and emits `done`, and the error
reaches the caller.  Otherwise the scheduler loop runs, followed (on the
non-exception paths) by finalization and the `results` and `summary`
events, and in all cases by the `finally` block. -/
def executeConfig (config : SearchConfig) (rid : Option String)
    (sinkFails : Bool) : ExecOut :=
  let opts := extractOperationsFromConfig config
  let st1 := startState config rid
  if opts.all Option.isSome then
    match schedLoop rid (planOperations config) (planOperations config).length st1 with
    | .failed st n m => finishRun rid sinkFails st [] (some (.opError n m))
    | .stuck st rem => afterLoop rid sinkFails [rem] st
    | .finished st => afterLoop rid sinkFails [] st
    | .fuelOut st => afterLoop rid sinkFails [] st
  else
    finishRun rid sinkFails st1 [] (some .attrError)

/-- The per-operator event subsequence: the types of the events carrying
`op = some n`, in publication order. -/
def opTrace (n : String) (events : List Event) : List EventType :=
  (events.filter (fun e => e.op == some n)).map (fun e => e.type)

/-- The state carried by either outcome of `runBatch`. -/
def exceptState (x : Except (EState × String × String) EState) : EState :=
  match x with
  | .ok st => st
  | .error (st, _, _) => st

/-- The state carried by any outcome of the scheduler loop. -/
def outState : LoopOut → EState
  | .finished st => st
  | .stuck st _ => st
  | .failed st _ _ => st
  | .fuelOut st => st

/-- The `seq` values published so far are exactly `1, 2, …, gseq`. -/
def SeqOk (st : EState) : Prop :=
  st.events.map (fun e => e.seq) = List.range' 1 st.events.length ∧
  st.gseq = st.events.length

/-- No `results` and no `summary` frame has been published. -/
def TypesOk (st : EState) : Prop :=
  ∀ e ∈ st.events, e.type ≠ .results ∧ e.type ≠ .summary

/-- Well-formedness of the per-operator event stream: every executed
operator has exactly `operator_start, operator_end`; the failed operator
(when given) has exactly `operator_start, error`; every other operator has
published nothing. -/
def TraceOK (st : EState) (failed : Option String) : Prop :=
  (∀ n, failed = some n → n ∉ st.executed ∧
    opTrace n st.events = [.operator_start, .error]) ∧
  (∀ k, k ∈ st.executed → opTrace k st.events = [.operator_start, .operator_end]) ∧
  (∀ k, k ∉ st.executed → failed ≠ some k → opTrace k st.events = [])

/-- The published event list begins with the `start` frame. -/
def HeadStart (st : EState) : Prop :=
  ∃ t, st.events = { type := .start, seq := 1, op := none, op_seq := none } :: t

/-- The keys of `timings` are exactly the executed names, in order. -/
def KeysOk (st : EState) : Prop := st.ctx.timings.map Prod.fst = st.executed

/-- Neither `raw_results` nor `final_results` has been written. -/
def NoResults (st : EState) : Prop :=
  st.ctx.raw_results = none ∧ st.ctx.final_results = none

/-! ### Concrete fixtures used by the witnesses and the counterexample -/

/-- A dependency-free operator that mutates nothing and returns normally. -/
def opEmbed : Operation := ⟨"embedding", [], fun c => (c, none), 5⟩

/-- A retrieval operator that writes two raw results. -/
def opVector : Operation :=
  ⟨"vector_search", ["embedding"], fun c => ({ c with raw_results := some [1, 2] }, none), 7⟩

/-- A retrieval operator that raises `boom`. -/
def opBoom : Operation := ⟨"vector_search", ["embedding"], fun c => (c, some "boom"), 3⟩

/-- Two operators forming a dependency cycle (scenario E of the spec). -/
def opCycA : Operation := ⟨"A", ["B"], fun c => (c, none), 1⟩

def opCycB : Operation := ⟨"B", ["A"], fun c => (c, none), 1⟩

/-- Minimal config: both required operators, all optional slots null. -/
def cfgMin : SearchConfig :=
  ⟨"hello", 10, 0, none, none, none, some opEmbed, some opVector, none, none, none⟩

/-- Minimal config whose retrieval operator raises. -/
def cfgBoom : SearchConfig := { cfgMin with vector_search := some opBoom }

/-- Config whose two required slots form a dependency cycle. -/
def cfgCyclic : SearchConfig :=
  { cfgMin with embedding := some opCycA, vector_search := some opCycB }

/-- Config with the required `embedding` slot left null. -/
def cfgMissingEmbedding : SearchConfig := { cfgMin with embedding := none }

/-! ### Basic lemmas about the building blocks -/

lemma emitEvent_ctx (rid : Option String) (ty : EventType) (opName : Option String)
    (st : EState) : (emitEvent rid ty opName st).ctx = st.ctx := by
  cases rid <;> cases opName <;> rfl

lemma emitEvent_executed (rid : Option String) (ty : EventType) (opName : Option String)
    (st : EState) : (emitEvent rid ty opName st).executed = st.executed := by
  cases rid <;> cases opName <;> rfl

lemma emitEvent_none (ty : EventType) (opName : Option String) (st : EState) :
    emitEvent none ty opName st = st := rfl

lemma emitEvent_some_events (r : String) (ty : EventType) (opName : Option String)
    (st : EState) :
    ∃ osq, (emitEvent (some r) ty opName st).events
      = st.events ++ [{ type := ty, seq := st.gseq + 1, op := opName, op_seq := osq }] := by
  cases opName <;> exact ⟨_, rfl⟩

lemma emitEvent_some_gseq (r : String) (ty : EventType) (opName : Option String)
    (st : EState) : (emitEvent (some r) ty opName st).gseq = st.gseq + 1 := by
  cases opName <;> rfl

lemma setAdd_of_not_mem {l : List String} {a : String} (h : a ∉ l) :
    setAdd l a = l ++ [a] := by
  simp [setAdd, h]

lemma setAdd_length_le (l : List String) (a : String) :
    l.length ≤ (setAdd l a).length := by
  unfold setAdd
  split <;> simp

lemma mem_setAdd {l : List String} {a b : String} :
    b ∈ setAdd l a ↔ b ∈ l ∨ b = a := by
  unfold setAdd
  by_cases h : l.contains a = true
  · have ha : a ∈ l := by simpa using h
    simp only [h, if_true]
    constructor
    · exact Or.inl
    · rintro (hb | rfl)
      · exact hb
      · exact ha
  · simp only [h, if_false]
    simp

lemma dictInsert_keys {d : List (String × Nat)} {ex : List String} (k : String) (v : Nat)
    (h : d.map Prod.fst = ex) : (dictInsert d k v).map Prod.fst = setAdd ex k := by
  subst h
  by_cases hk : ∃ p ∈ d, p.1 = k
  · have h1 : d.any (fun p => p.1 == k) = true := by
      simp only [List.any_eq_true, beq_iff_eq]
      exact hk
    have h2 : (d.map Prod.fst).contains k = true := by
      simp only [List.contains_iff_exists_mem_beq, List.mem_map, beq_iff_eq]
      obtain ⟨p, hp, hpk⟩ := hk
      exact ⟨k, ⟨p, hp, hpk⟩, rfl⟩
    simp only [dictInsert, h1, if_true, setAdd, h2, if_true]
    rw [List.map_map, List.map_congr_left]
    intro p hp
    by_cases hpk : p.1 = k <;> simp [hpk]
  · have h1 : d.any (fun p => p.1 == k) = false := by
      simp only [List.any_eq_false, beq_iff_eq]
      intro p hp
      exact fun hpk => hk ⟨p, hp, hpk⟩
    have h2 : (d.map Prod.fst).contains k = false := by
      rw [Bool.eq_false_iff]
      intro hc
      rw [List.contains_iff_exists_mem_beq] at hc
      obtain ⟨b, hb, hkb⟩ := hc
      rw [beq_iff_eq] at hkb
      obtain ⟨p, hp, hpb⟩ := List.mem_map.mp hb
      exact hk ⟨p, hp, by rw [hpb, ← hkb]⟩
    simp only [dictInsert, h1, Bool.false_eq_true, if_false, setAdd, List.map_append]
    rw [if_neg (by rw [h2]; simp)]
    simp

lemma findReady_subset {ops : List Operation} {ex : List String} {op : Operation}
    (h : op ∈ findReadyOperations ops ex) : op ∈ ops :=
  List.mem_of_mem_filter h

lemma findReady_not_executed {ops : List Operation} {ex : List String} {op : Operation}
    (h : op ∈ findReadyOperations ops ex) : op.name ∉ ex := by
  have := List.of_mem_filter h
  simp only [Bool.and_eq_true, Bool.not_eq_true'] at this
  simpa using this.1

lemma findReady_names_sublist (ops : List Operation) (ex : List String) :
    ((findReadyOperations ops ex).map (fun op => op.name)).Sublist
      (ops.map (fun op => op.name)) :=
  (List.filter_sublist ops).map (fun op => op.name)

lemma opTrace_append (k : String) (es : List Event) (e : Event) :
    opTrace k (es ++ [e])
      = opTrace k es ++ (if e.op == some k then [e.type] else []) := by
  simp only [opTrace, List.filter_append]
  by_cases h : e.op == some k <;> simp [h]

lemma opTrace_append_none (k : String) (es : List Event) (e : Event)
    (h : e.op = none) : opTrace k (es ++ [e]) = opTrace k es := by
  rw [opTrace_append, h]
  simp

/-! ### Generic preservation machinery for the scheduler loop -/

lemma range'_snoc (L : Nat) :
    List.range' 1 (L + 1) = List.range' 1 L ++ [L + 1] := by
  rw [List.range'_concat, Nat.one_mul, Nat.add_comm 1 L]

/-- Unfolding equations for `schedLoop`. -/
lemma schedLoop_zero (rid : Option String) (ops : List Operation) (st : EState) :
    schedLoop rid ops 0 st =
      if st.executed.length < ops.length then .fuelOut st else .finished st := rfl

lemma schedLoop_succ_ge (rid : Option String) (ops : List Operation) (fuel : Nat)
    (st : EState) (hcond : ¬ st.executed.length < ops.length) :
    schedLoop rid ops (fuel + 1) st = .finished st := by
  simp only [schedLoop]
  rw [if_neg hcond]

lemma schedLoop_succ_nil (rid : Option String) (ops : List Operation) (fuel : Nat)
    (st : EState) (hcond : st.executed.length < ops.length)
    (h : findReadyOperations ops st.executed = []) :
    schedLoop rid ops (fuel + 1) st = .stuck st (remainingNames ops st.executed) := by
  simp only [schedLoop]
  rw [if_pos hcond, h]

lemma schedLoop_succ_cons (rid : Option String) (ops : List Operation) (fuel : Nat)
    (st : EState) (op : Operation) (rest : List Operation)
    (hcond : st.executed.length < ops.length)
    (h : findReadyOperations ops st.executed = op :: rest) :
    schedLoop rid ops (fuel + 1) st =
      match runBatch rid (op :: rest) st with
      | .error (st', n, m) => .failed st' n m
      | .ok st' => schedLoop rid ops fuel st' := by
  simp only [schedLoop]
  rw [if_pos hcond, h]

lemma seqOk_emit {st : EState} (rid : Option String) (ty : EventType)
    (opName : Option String) (h : SeqOk st) : SeqOk (emitEvent rid ty opName st) := by
  cases rid with
  | none => exact h
  | some r =>
    obtain ⟨hmap, hg⟩ := h
    obtain ⟨osq, hev⟩ := emitEvent_some_events r ty opName st
    constructor
    · rw [hev, List.map_append, hmap, List.length_append, hg]
      have h1 : [(⟨ty, st.events.length + 1, opName, osq⟩ : Event)].length = 1 := rfl
      rw [h1, range'_snoc]
      simp
    · rw [emitEvent_some_gseq, hev, List.length_append, hg]
      simp

lemma typesOk_emit {st : EState} (rid : Option String) {ty : EventType}
    (opName : Option String) (h1 : ty ≠ .results) (h2 : ty ≠ .summary)
    (h : TypesOk st) : TypesOk (emitEvent rid ty opName st) := by
  cases rid with
  | none => exact h
  | some r =>
    obtain ⟨osq, hev⟩ := emitEvent_some_events r ty opName st
    intro e he
    rw [hev, List.mem_append] at he
    rcases he with he | he
    · exact h e he
    · simp only [List.mem_singleton] at he
      subst he
      exact ⟨h1, h2⟩

/-- A property that ignores the context and the `executed` set and is
preserved by every emit is preserved by `runBatch`, whichever way the batch
ends. -/
lemma runBatch_preserve_ev (rid : Option String) (P : EState → Prop)
    (hirr : ∀ (st : EState) (c : Ctx) (ex : List String),
      P st → P { st with ctx := c, executed := ex })
    (hemit : ∀ (ty : EventType) (opName : Option String) (st : EState),
      (ty = .operator_start ∨ ty = .operator_end ∨ ty = .error) →
      P st → P (emitEvent rid ty opName st)) :
    ∀ (batch : List Operation) (st : EState), P st →
      P (exceptState (runBatch rid batch st)) := by
  intro batch
  induction batch with
  | nil => intro st h; exact h
  | cons op rest ih =>
    intro st h
    have h1 := hemit .operator_start (some op.name) st (Or.inl rfl) h
    simp only [runBatch]
    cases hrun : op.run (emitEvent rid .operator_start (some op.name) st).ctx with
    | mk ctx1 res =>
      cases res with
      | none =>
        exact ih _ (hemit _ _ _ (Or.inr (Or.inl rfl)) (hirr _ _ _ h1))
      | some msg =>
        show P (emitEvent rid .error (some op.name)
          { emitEvent rid .operator_start (some op.name) st with
            ctx := { ctx1 with errors := ctx1.errors ++ [(op.name, msg)] }
            executed := (emitEvent rid .operator_start (some op.name) st).executed })
        exact hemit _ _ _ (Or.inr (Or.inr rfl)) (hirr _ _ _ h1)

/-- Main induction principle over the scheduler loop: an invariant `P`
that every arising batch preserves (turning into `Q` at a batch failure)
holds at every loop outcome. -/
lemma schedLoop_invariant (rid : Option String) (ops : List Operation)
    (P : EState → Prop) (Q : EState → String → Prop)
    (hB : ∀ (batch : List Operation) (st : EState),
      (∀ op ∈ batch, op ∈ ops) →
      (∀ op ∈ batch, op.name ∉ st.executed) →
      ((batch.map (fun op => op.name)).Sublist (ops.map (fun op => op.name))) →
      P st →
      (match runBatch rid batch st with
       | .ok st' => P st'
       | .error (st', n, _) => Q st' n)) :
    ∀ (fuel : Nat) (st : EState), P st →
      (match schedLoop rid ops fuel st with
       | .finished st' => P st'
       | .stuck st' _ => P st'
       | .fuelOut st' => P st'
       | .failed st' n _ => Q st' n) := by
  intro fuel
  induction fuel with
  | zero =>
    intro st h
    rw [schedLoop_zero]
    by_cases hcond : st.executed.length < ops.length
    · rw [if_pos hcond]
      exact h
    · rw [if_neg hcond]
      exact h
  | succ fuel ih =>
    intro st h
    by_cases hcond : st.executed.length < ops.length
    · cases hready : findReadyOperations ops st.executed with
      | nil =>
        rw [schedLoop_succ_nil rid ops fuel st hcond hready]
        exact h
      | cons op rest =>
        rw [schedLoop_succ_cons rid ops fuel st op rest hcond hready]
        have hsub : ∀ q ∈ (op :: rest), q ∈ ops := by
          rw [← hready]
          exact fun q hq => findReady_subset hq
        have hnin : ∀ q ∈ (op :: rest), q.name ∉ st.executed := by
          rw [← hready]
          exact fun q hq => findReady_not_executed hq
        have hsl : ((op :: rest).map (fun o => o.name)).Sublist
            (ops.map (fun o => o.name)) := by
          rw [← hready]
          exact findReady_names_sublist ops st.executed
        have hb := hB (op :: rest) st hsub hnin hsl h
        cases hrb : runBatch rid (op :: rest) st with
        | ok st' =>
          rw [hrb] at hb
          exact ih st' hb
        | error e =>
          obtain ⟨st', n, m⟩ := e
          rw [hrb] at hb
          exact hb
    · rw [schedLoop_succ_ge rid ops fuel st hcond]
      exact h

/-! ### Per-operator trace invariant -/

lemma opTrace_emit (r : String) (ty : EventType) (opName : Option String)
    (st : EState) (k : String) :
    opTrace k (emitEvent (some r) ty opName st).events
      = opTrace k st.events ++ (if opName == some k then [ty] else []) := by
  obtain ⟨osq, hev⟩ := emitEvent_some_events r ty opName st
  rw [hev, opTrace_append]

lemma opTrace_emit_self (r : String) (ty : EventType) (n : String) (st : EState) :
    opTrace n (emitEvent (some r) ty (some n) st).events
      = opTrace n st.events ++ [ty] := by
  rw [opTrace_emit]
  simp

lemma opTrace_emit_other (r : String) (ty : EventType) (opName : Option String)
    (st : EState) (k : String) (h : opName ≠ some k) :
    opTrace k (emitEvent (some r) ty opName st).events = opTrace k st.events := by
  rw [opTrace_emit]
  have hb : (opName == some k) = false := by
    cases opName <;> simp_all
  rw [hb]
  simp

lemma exists_of_opTrace_mem {k : String} {es : List Event} {ty : EventType}
    (h : ty ∈ opTrace k es) : ∃ e ∈ es, e.op = some k ∧ e.type = ty := by
  simp only [opTrace, List.mem_map] at h
  obtain ⟨e, he, rfl⟩ := h
  have hf := List.mem_filter.mp he
  refine ⟨e, hf.1, ?_, rfl⟩
  simpa using hf.2

lemma runBatch_trace (r : String) :
    ∀ (batch : List Operation) (st : EState),
    TraceOK st none →
    (∀ op ∈ batch, op.name ∉ st.executed) →
    ((batch.map (fun op => op.name)).Nodup) →
    (match runBatch (some r) batch st with
     | .ok st' => TraceOK st' none ∧
         st'.executed = st.executed ++ batch.map (fun op => op.name)
     | .error (st', n, _) => TraceOK st' (some n)) := by
  intro batch
  induction batch with
  | nil =>
    intro st h _ _
    exact ⟨h, by simp⟩
  | cons op rest ih =>
    intro st h hnin hnd
    have hopnin : op.name ∉ st.executed := hnin op (List.mem_cons_self op rest)
    rw [List.map_cons, List.nodup_cons] at hnd
    obtain ⟨h1, h2, h3⟩ := h
    simp only [runBatch]
    cases hrun : op.run (emitEvent (some r) .operator_start (some op.name) st).ctx with
    | mk ctx1 res =>
      cases res with
      | none =>
        set st1 := emitEvent (some r) .operator_start (some op.name) st with hst1
        set st2 : EState :=
          { st1 with
            ctx := { ctx1 with timings := dictInsert ctx1.timings op.name op.time }
            executed := setAdd st1.executed op.name } with hst2
        set st3 := emitEvent (some r) .operator_end (some op.name) st2 with hst3
        have hex1 : st1.executed = st.executed := emitEvent_executed _ _ _ _
        have hev2 : st2.events = st1.events := rfl
        have hex2 : st2.executed = st.executed ++ [op.name] := by
          show setAdd st1.executed op.name = st.executed ++ [op.name]
          rw [hex1, setAdd_of_not_mem hopnin]
        have hex3 : st3.executed = st.executed ++ [op.name] := by
          rw [hst3, emitEvent_executed, hex2]
        have hotr : ∀ k, k ≠ op.name → opTrace k st3.events = opTrace k st.events := by
          intro k hk
          rw [hst3, opTrace_emit_other _ _ _ _ _ (by simpa using Ne.symm hk), hev2,
            hst1, opTrace_emit_other _ _ _ _ _ (by simpa using Ne.symm hk)]
        have hotn : opTrace op.name st3.events
            = opTrace op.name st.events ++ [.operator_start, .operator_end] := by
          rw [hst3, opTrace_emit_self, hev2, hst1, opTrace_emit_self]
          simp
        have hT3 : TraceOK st3 none := by
          refine ⟨by simp, ?_, ?_⟩
          · intro k hk
            rw [hex3, List.mem_append] at hk
            rcases hk with hk | hk
            · have hkne : k ≠ op.name := fun he => hopnin (he ▸ hk)
              rw [hotr k hkne]
              exact h2 k hk
            · simp only [List.mem_singleton] at hk
              subst hk
              rw [hotn, h3 op.name hopnin (by simp)]
              simp
          · intro k hk hne
            rw [hex3] at hk
            simp only [List.mem_append, List.mem_singleton, not_or] at hk
            obtain ⟨hk1, hk2⟩ := hk
            rw [hotr k hk2]
            exact h3 k hk1 (by simp)
        have hnin' : ∀ q ∈ rest, q.name ∉ st3.executed := by
          intro q hq
          rw [hex3]
          simp only [List.mem_append, List.mem_singleton, not_or]
          refine ⟨hnin q (List.mem_cons_of_mem op hq), ?_⟩
          intro he
          exact hnd.1 (he ▸ List.mem_map_of_mem (fun o => o.name) hq)
        have hI := ih st3 hT3 hnin' hnd.2
        show (match runBatch (some r) rest st3 with
          | .ok st' => TraceOK st' none ∧
              st'.executed = st.executed ++ (op :: rest).map (fun op => op.name)
          | .error (st', n, _) => TraceOK st' (some n))
        cases hres : runBatch (some r) rest st3 with
        | ok st' =>
          rw [hres] at hI
          refine ⟨hI.1, ?_⟩
          rw [hI.2, hex3]
          simp
        | error e =>
          obtain ⟨st', n, m⟩ := e
          rw [hres] at hI
          exact hI
      | some msg =>
        set st1 := emitEvent (some r) .operator_start (some op.name) st with hst1
        set st2 : EState :=
          { st1 with
            ctx := { ctx1 with errors := ctx1.errors ++ [(op.name, msg)] } } with hst2
        set st3 := emitEvent (some r) .error (some op.name) st2 with hst3
        have hex1 : st1.executed = st.executed := emitEvent_executed _ _ _ _
        have hev2 : st2.events = st1.events := rfl
        have hex3 : st3.executed = st.executed := by
          rw [hst3, emitEvent_executed]
          exact hex1
        have hotr : ∀ k, k ≠ op.name → opTrace k st3.events = opTrace k st.events := by
          intro k hk
          rw [hst3, opTrace_emit_other _ _ _ _ _ (by simpa using Ne.symm hk), hev2,
            hst1, opTrace_emit_other _ _ _ _ _ (by simpa using Ne.symm hk)]
        have hotn : opTrace op.name st3.events
            = opTrace op.name st.events ++ [.operator_start, .error] := by
          rw [hst3, opTrace_emit_self, hev2, hst1, opTrace_emit_self]
          simp
        show TraceOK st3 (some op.name)
        refine ⟨?_, ?_, ?_⟩
        · intro n hn
          injection hn with hn
          subst hn
          refine ⟨by rw [hex3]; exact hopnin, ?_⟩
          rw [hotn, h3 op.name hopnin (by simp)]
          simp
        · intro k hk
          rw [hex3] at hk
          have hkne : k ≠ op.name := fun he => hopnin (he ▸ hk)
          rw [hotr k hkne]
          exact h2 k hk
        · intro k hk hne
          rw [hex3] at hk
          have hkne : k ≠ op.name := by
            intro he
            exact hne (by rw [he])
          rw [hotr k hkne]
          exact h3 k hk (by simp)

lemma schedLoop_trace (r : String) (ops : List Operation)
    (hplan : (ops.map (fun op => op.name)).Nodup) (fuel : Nat) (st : EState)
    (h : TraceOK st none) :
    match schedLoop (some r) ops fuel st with
    | .finished st' => TraceOK st' none
    | .stuck st' _ => TraceOK st' none
    | .fuelOut st' => TraceOK st' none
    | .failed st' n _ => TraceOK st' (some n) := by
  refine schedLoop_invariant (some r) ops (fun st => TraceOK st none)
    (fun st n => TraceOK st (some n)) ?_ fuel st h
  intro batch st hsub hnin hsl hP
  have hnd := hplan.sublist hsl
  have hrt := runBatch_trace r batch st hP hnin hnd
  cases hrb : runBatch (some r) batch st with
  | ok st' =>
    rw [hrb] at hrt
    exact hrt.1
  | error e =>
    obtain ⟨st', n, m⟩ := e
    rw [hrb] at hrt
    exact hrt

/-! ### Shape and progress lemmas for the scheduler loop -/

lemma runBatch_cons_ok (rid : Option String) (op : Operation) (rest : List Operation)
    (st : EState) (ctx1 : Ctx)
    (h : op.run (emitEvent rid .operator_start (some op.name) st).ctx = (ctx1, none)) :
    runBatch rid (op :: rest) st = runBatch rid rest
      (emitEvent rid .operator_end (some op.name)
        { emitEvent rid .operator_start (some op.name) st with
          ctx := { ctx1 with timings := dictInsert ctx1.timings op.name op.time }
          executed := setAdd (emitEvent rid .operator_start (some op.name) st).executed
            op.name }) := by
  simp only [runBatch]
  rw [h]

lemma runBatch_cons_err (rid : Option String) (op : Operation) (rest : List Operation)
    (st : EState) (ctx1 : Ctx) (msg : String)
    (h : op.run (emitEvent rid .operator_start (some op.name) st).ctx = (ctx1, some msg)) :
    runBatch rid (op :: rest) st = .error
      (emitEvent rid .error (some op.name)
        { emitEvent rid .operator_start (some op.name) st with
          ctx := { ctx1 with errors := ctx1.errors ++ [(op.name, msg)] } },
       op.name, msg) := by
  simp only [runBatch]
  rw [h]

lemma runBatch_ok_exec_mono (rid : Option String) :
    ∀ (batch : List Operation) (st st' : EState),
    runBatch rid batch st = .ok st' → st.executed.length ≤ st'.executed.length := by
  intro batch
  induction batch with
  | nil =>
    intro st st' h
    injection h with h
    subst h
    exact le_rfl
  | cons op rest ih =>
    intro st st' h
    cases hrun : op.run (emitEvent rid .operator_start (some op.name) st).ctx with
    | mk ctx1 res =>
      cases res with
      | none =>
        rw [runBatch_cons_ok rid op rest st ctx1 hrun] at h
        have hmono := ih _ _ h
        have hx : (emitEvent rid .operator_end (some op.name)
            { emitEvent rid .operator_start (some op.name) st with
              ctx := { ctx1 with timings := dictInsert ctx1.timings op.name op.time }
              executed := setAdd (emitEvent rid .operator_start (some op.name) st).executed
                op.name }).executed = setAdd st.executed op.name := by
          rw [emitEvent_executed]
          show setAdd (emitEvent rid .operator_start (some op.name) st).executed op.name = _
          rw [emitEvent_executed]
        rw [hx] at hmono
        exact le_trans (setAdd_length_le _ _) hmono
      | some msg =>
        rw [runBatch_cons_err rid op rest st ctx1 msg hrun] at h
        exact absurd h (by simp)

lemma runBatch_cons_ok_progress (rid : Option String) (op : Operation)
    (rest : List Operation) (st st' : EState)
    (hni : op.name ∉ st.executed)
    (h : runBatch rid (op :: rest) st = .ok st') :
    st.executed.length < st'.executed.length := by
  cases hrun : op.run (emitEvent rid .operator_start (some op.name) st).ctx with
  | mk ctx1 res =>
    cases res with
    | none =>
      rw [runBatch_cons_ok rid op rest st ctx1 hrun] at h
      have hmono := runBatch_ok_exec_mono rid rest _ _ h
      have hx : (emitEvent rid .operator_end (some op.name)
          { emitEvent rid .operator_start (some op.name) st with
            ctx := { ctx1 with timings := dictInsert ctx1.timings op.name op.time }
            executed := setAdd (emitEvent rid .operator_start (some op.name) st).executed
              op.name }).executed = setAdd st.executed op.name := by
        rw [emitEvent_executed]
        show setAdd (emitEvent rid .operator_start (some op.name) st).executed op.name = _
        rw [emitEvent_executed]
      rw [hx, setAdd_of_not_mem hni] at hmono
      rw [List.length_append] at hmono
      simp only [List.length_singleton] at hmono
      omega
    | some msg =>
      rw [runBatch_cons_err rid op rest st ctx1 msg hrun] at h
      exact absurd h (by simp)

lemma schedLoop_no_fuelOut (rid : Option String) (ops : List Operation) :
    ∀ (fuel : Nat) (st : EState), ops.length - st.executed.length ≤ fuel →
    ∀ st', schedLoop rid ops fuel st ≠ .fuelOut st' := by
  intro fuel
  induction fuel with
  | zero =>
    intro st hf st' hcontra
    rw [schedLoop_zero] at hcontra
    by_cases hcond : st.executed.length < ops.length
    · omega
    · rw [if_neg hcond] at hcontra
      exact LoopOut.noConfusion hcontra
  | succ fuel ih =>
    intro st hf st' hcontra
    by_cases hcond : st.executed.length < ops.length
    · cases hready : findReadyOperations ops st.executed with
      | nil =>
        rw [schedLoop_succ_nil rid ops fuel st hcond hready] at hcontra
        exact LoopOut.noConfusion hcontra
      | cons op rest =>
        rw [schedLoop_succ_cons rid ops fuel st op rest hcond hready] at hcontra
        cases hrb : runBatch rid (op :: rest) st with
        | ok st2 =>
          rw [hrb] at hcontra
          have hni : op.name ∉ st.executed := findReady_not_executed
            (by rw [hready]; exact List.mem_cons_self op rest)
          have hprog := runBatch_cons_ok_progress rid op rest st st2 hni hrb
          exact ih st2 (by omega) st' hcontra
        | error e =>
          obtain ⟨st2, n2, m2⟩ := e
          rw [hrb] at hcontra
          exact LoopOut.noConfusion hcontra
    · rw [schedLoop_succ_ge rid ops fuel st hcond] at hcontra
      exact LoopOut.noConfusion hcontra

lemma runBatch_nofail (rid : Option String) :
    ∀ (batch : List Operation) (st : EState),
    (∀ op ∈ batch, ∀ c, (op.run c).2 = none) →
    ∀ st' n m, runBatch rid batch st ≠ .error (st', n, m) := by
  intro batch
  induction batch with
  | nil =>
    intro st _ st' n m h
    exact Except.noConfusion h
  | cons op rest ih =>
    intro st hops st' n m h
    cases hrun : op.run (emitEvent rid .operator_start (some op.name) st).ctx with
    | mk ctx1 res =>
      have hres : res = none := by
        have hr := hops op (List.mem_cons_self op rest)
          (emitEvent rid .operator_start (some op.name) st).ctx
        rw [hrun] at hr
        exact hr
      subst hres
      rw [runBatch_cons_ok rid op rest st ctx1 hrun] at h
      exact ih _ (fun q hq => hops q (List.mem_cons_of_mem op hq)) st' n m h

lemma schedLoop_nofail (rid : Option String) (ops : List Operation)
    (hops : ∀ op ∈ ops, ∀ c, (op.run c).2 = none) :
    ∀ (fuel : Nat) (st st' : EState) (n m : String),
    schedLoop rid ops fuel st ≠ .failed st' n m := by
  intro fuel
  induction fuel with
  | zero =>
    intro st st' n m h
    rw [schedLoop_zero] at h
    by_cases hcond : st.executed.length < ops.length
    · rw [if_pos hcond] at h
      exact LoopOut.noConfusion h
    · rw [if_neg hcond] at h
      exact LoopOut.noConfusion h
  | succ fuel ih =>
    intro st st' n m h
    by_cases hcond : st.executed.length < ops.length
    · cases hready : findReadyOperations ops st.executed with
      | nil =>
        rw [schedLoop_succ_nil rid ops fuel st hcond hready] at h
        exact LoopOut.noConfusion h
      | cons op rest =>
        rw [schedLoop_succ_cons rid ops fuel st op rest hcond hready] at h
        cases hrb : runBatch rid (op :: rest) st with
        | ok st2 =>
          rw [hrb] at h
          exact ih st2 st' n m h
        | error e =>
          obtain ⟨st2, n2, m2⟩ := e
          have hsubs : ∀ q ∈ (op :: rest), ∀ c, (q.run c).2 = none := by
            intro q hq
            exact hops q (findReady_subset (by rw [hready]; exact hq))
          exact absurd hrb (runBatch_nofail rid (op :: rest) st hsubs st2 n2 m2)
    · rw [schedLoop_succ_ge rid ops fuel st hcond] at h
      exact LoopOut.noConfusion h

lemma schedLoop_stuck_spec (rid : Option String) (ops : List Operation) :
    ∀ (fuel : Nat) (st st' : EState) (rem : List String),
    schedLoop rid ops fuel st = .stuck st' rem →
    rem = remainingNames ops st'.executed ∧ st'.executed.length < ops.length := by
  intro fuel
  induction fuel with
  | zero =>
    intro st st' rem h
    rw [schedLoop_zero] at h
    by_cases hcond : st.executed.length < ops.length
    · rw [if_pos hcond] at h
      exact LoopOut.noConfusion h
    · rw [if_neg hcond] at h
      exact LoopOut.noConfusion h
  | succ fuel ih =>
    intro st st' rem h
    by_cases hcond : st.executed.length < ops.length
    · cases hready : findReadyOperations ops st.executed with
      | nil =>
        rw [schedLoop_succ_nil rid ops fuel st hcond hready] at h
        injection h with h1 h2
        subst h1
        subst h2
        exact ⟨rfl, hcond⟩
      | cons op rest =>
        rw [schedLoop_succ_cons rid ops fuel st op rest hcond hready] at h
        cases hrb : runBatch rid (op :: rest) st with
        | ok st2 =>
          rw [hrb] at h
          exact ih st2 st' rem h
        | error e =>
          obtain ⟨st2, n2, m2⟩ := e
          rw [hrb] at h
          exact LoopOut.noConfusion h
    · rw [schedLoop_succ_ge rid ops fuel st hcond] at h
      exact LoopOut.noConfusion h

lemma schedLoop_finished_executed (rid : Option String) (ops : List Operation) :
    ∀ (fuel : Nat) (st st' : EState),
    schedLoop rid ops fuel st = .finished st' →
    ops.length ≤ st'.executed.length := by
  intro fuel
  induction fuel with
  | zero =>
    intro st st' h
    rw [schedLoop_zero] at h
    by_cases hcond : st.executed.length < ops.length
    · rw [if_pos hcond] at h
      exact LoopOut.noConfusion h
    · rw [if_neg hcond] at h
      injection h with h1
      subst h1
      omega
  | succ fuel ih =>
    intro st st' h
    by_cases hcond : st.executed.length < ops.length
    · cases hready : findReadyOperations ops st.executed with
      | nil =>
        rw [schedLoop_succ_nil rid ops fuel st hcond hready] at h
        exact LoopOut.noConfusion h
      | cons op rest =>
        rw [schedLoop_succ_cons rid ops fuel st op rest hcond hready] at h
        cases hrb : runBatch rid (op :: rest) st with
        | ok st2 =>
          rw [hrb] at h
          exact ih st2 st' h
        | error e =>
          obtain ⟨st2, n2, m2⟩ := e
          rw [hrb] at h
          exact LoopOut.noConfusion h
    · rw [schedLoop_succ_ge rid ops fuel st hcond] at h
      injection h with h1
      subst h1
      omega

lemma runBatch_error_getLast (rid : Option String) :
    ∀ (batch : List Operation) (st st' : EState) (n m : String),
    runBatch rid batch st = .error (st', n, m) →
    st'.ctx.errors.getLast? = some (n, m) := by
  intro batch
  induction batch with
  | nil =>
    intro st st' n m h
    exact Except.noConfusion h
  | cons op rest ih =>
    intro st st' n m h
    cases hrun : op.run (emitEvent rid .operator_start (some op.name) st).ctx with
    | mk ctx1 res =>
      cases res with
      | none =>
        rw [runBatch_cons_ok rid op rest st ctx1 hrun] at h
        exact ih _ _ _ _ h
      | some msg =>
        rw [runBatch_cons_err rid op rest st ctx1 msg hrun] at h
        injection h with h1
        rw [Prod.mk.injEq, Prod.mk.injEq] at h1
        obtain ⟨h2, h3, h4⟩ := h1
        subst h3
        subst h4
        rw [← h2, emitEvent_ctx]
        show (ctx1.errors ++ [(op.name, msg)]).getLast? = some (op.name, msg)
        simp
  
lemma schedLoop_failed_getLast (rid : Option String) (ops : List Operation) :
    ∀ (fuel : Nat) (st st' : EState) (n m : String),
    schedLoop rid ops fuel st = .failed st' n m →
    st'.ctx.errors.getLast? = some (n, m) := by
  intro fuel
  induction fuel with
  | zero =>
    intro st st' n m h
    rw [schedLoop_zero] at h
    by_cases hcond : st.executed.length < ops.length
    · rw [if_pos hcond] at h
      exact LoopOut.noConfusion h
    · rw [if_neg hcond] at h
      exact LoopOut.noConfusion h
  | succ fuel ih =>
    intro st st' n m h
    by_cases hcond : st.executed.length < ops.length
    · cases hready : findReadyOperations ops st.executed with
      | nil =>
        rw [schedLoop_succ_nil rid ops fuel st hcond hready] at h
        exact LoopOut.noConfusion h
      | cons op rest =>
        rw [schedLoop_succ_cons rid ops fuel st op rest hcond hready] at h
        cases hrb : runBatch rid (op :: rest) st with
        | ok st2 =>
          rw [hrb] at h
          exact ih st2 st' n m h
        | error e =>
          obtain ⟨st2, n2, m2⟩ := e
          rw [hrb] at h
          injection h with h1 h2 h3
          subst h1
          subst h2
          subst h3
          exact runBatch_error_getLast rid (op :: rest) st _ _ _ hrb
    · rw [schedLoop_succ_ge rid ops fuel st hcond] at h
      exact LoopOut.noConfusion h

/-- Preservation through the whole loop of a property that ignores the
context and the `executed` set and is preserved by the operator-event
emits. -/
lemma schedLoop_preserve_ev (rid : Option String) (ops : List Operation)
    (P : EState → Prop)
    (hirr : ∀ (st : EState) (c : Ctx) (ex : List String),
      P st → P { st with ctx := c, executed := ex })
    (hemit : ∀ (ty : EventType) (opName : Option String) (st : EState),
      (ty = .operator_start ∨ ty = .operator_end ∨ ty = .error) →
      P st → P (emitEvent rid ty opName st))
    (fuel : Nat) (st : EState) (h : P st) :
    P (outState (schedLoop rid ops fuel st)) := by
  have hmain := schedLoop_invariant rid ops P (fun s _ => P s)
    (by
      intro batch st _ _ _ hP
      have hr := runBatch_preserve_ev rid P hirr hemit batch st hP
      cases hrb : runBatch rid batch st with
      | ok st' =>
        rw [hrb] at hr
        exact hr
      | error e =>
        obtain ⟨st', n, m⟩ := e
        rw [hrb] at hr
        exact hr)
    fuel st h
  cases hl : schedLoop rid ops fuel st with
  | finished st' => rw [hl] at hmain; exact hmain
  | stuck st' rem => rw [hl] at hmain; exact hmain
  | failed st' n m => rw [hl] at hmain; exact hmain
  | fuelOut st' => rw [hl] at hmain; exact hmain

lemma headStart_emit (rid : Option String) (ty : EventType) (opName : Option String)
    (st : EState) (h : HeadStart st) : HeadStart (emitEvent rid ty opName st) := by
  cases rid with
  | none => exact h
  | some r =>
    obtain ⟨osq, hev⟩ := emitEvent_some_events r ty opName st
    obtain ⟨t, ht⟩ := h
    refine ⟨t ++ [⟨ty, st.gseq + 1, opName, osq⟩], ?_⟩
    rw [hev, ht]
    simp

/-! ### Context invariants: timing keys track `executed`, no results yet -/

lemma runBatch_keys_results (rid : Option String) :
    ∀ (batch : List Operation) (st : EState),
    (∀ op ∈ batch, ∀ c, ((op.run c).1).timings = c.timings ∧
      ((op.run c).1).raw_results = c.raw_results ∧
      ((op.run c).1).final_results = c.final_results) →
    KeysOk st ∧ NoResults st →
    KeysOk (exceptState (runBatch rid batch st)) ∧
      NoResults (exceptState (runBatch rid batch st)) := by
  intro batch
  induction batch with
  | nil =>
    intro st _ h
    exact h
  | cons op rest ih =>
    intro st hops h
    obtain ⟨hK, hR⟩ := h
    cases hrun : op.run (emitEvent rid .operator_start (some op.name) st).ctx with
    | mk ctx1 res =>
      have hpre := hops op (List.mem_cons_self op rest)
        (emitEvent rid .operator_start (some op.name) st).ctx
      rw [hrun, emitEvent_ctx] at hpre
      obtain ⟨hT, hRaw, hFin⟩ := hpre
      cases res with
      | none =>
        rw [runBatch_cons_ok rid op rest st ctx1 hrun]
        refine ih _ (fun q hq => hops q (List.mem_cons_of_mem op hq)) ⟨?_, ?_⟩
        · unfold KeysOk
          rw [emitEvent_ctx rid .operator_end (some op.name),
            emitEvent_executed rid .operator_end (some op.name)]
          show (dictInsert ctx1.timings op.name op.time).map Prod.fst
            = setAdd (emitEvent rid .operator_start (some op.name) st).executed op.name
          rw [emitEvent_executed]
          exact dictInsert_keys op.name op.time (by rw [hT]; exact hK)
        · unfold NoResults
          rw [emitEvent_ctx rid .operator_end (some op.name)]
          constructor
          · show ctx1.raw_results = none
            rw [hRaw]
            exact hR.1
          · show ctx1.final_results = none
            rw [hFin]
            exact hR.2
      | some msg =>
        rw [runBatch_cons_err rid op rest st ctx1 msg hrun]
        constructor
        · simp only [exceptState]
          unfold KeysOk
          rw [emitEvent_ctx rid .error (some op.name),
            emitEvent_executed rid .error (some op.name)]
          show ctx1.timings.map Prod.fst
            = (emitEvent rid .operator_start (some op.name) st).executed
          rw [emitEvent_executed, hT]
          exact hK
        · simp only [exceptState]
          unfold NoResults
          rw [emitEvent_ctx rid .error (some op.name)]
          constructor
          · show ctx1.raw_results = none
            rw [hRaw]
            exact hR.1
          · show ctx1.final_results = none
            rw [hFin]
            exact hR.2

lemma schedLoop_keys_results (rid : Option String) (ops : List Operation)
    (hops : ∀ op ∈ ops, ∀ c, ((op.run c).1).timings = c.timings ∧
      ((op.run c).1).raw_results = c.raw_results ∧
      ((op.run c).1).final_results = c.final_results)
    (fuel : Nat) (st : EState) (h : KeysOk st ∧ NoResults st) :
    KeysOk (outState (schedLoop rid ops fuel st)) ∧
      NoResults (outState (schedLoop rid ops fuel st)) := by
  have hmain := schedLoop_invariant rid ops (fun s => KeysOk s ∧ NoResults s)
    (fun s _ => KeysOk s ∧ NoResults s)
    (by
      intro batch st hsub _ _ hP
      have hr := runBatch_keys_results rid batch st
        (fun q hq => hops q (hsub q hq)) hP
      cases hrb : runBatch rid batch st with
      | ok st' =>
        rw [hrb] at hr
        exact hr
      | error e =>
        obtain ⟨st', n, m⟩ := e
        rw [hrb] at hr
        exact hr)
    fuel st h
  cases hl : schedLoop rid ops fuel st with
  | finished st' => rw [hl] at hmain; exact hmain
  | stuck st' rem => rw [hl] at hmain; exact hmain
  | failed st' n m => rw [hl] at hmain; exact hmain
  | fuelOut st' => rw [hl] at hmain; exact hmain

/-! ### Facts about the entry, terminal and finalization stages -/

lemma finishRun_ctx (rid : Option String) (s : Bool) (st : EState)
    (w : List (List String)) (re : Option RunError) :
    (finishRun rid s st w re).ctx = st.ctx :=
  emitEvent_ctx rid .done none st

lemma finishRun_executedNames (rid : Option String) (s : Bool) (st : EState)
    (w : List (List String)) (re : Option RunError) :
    (finishRun rid s st w re).executedNames = st.executed :=
  emitEvent_executed rid .done none st

lemma finishRun_raised (rid : Option String) (s : Bool) (st : EState)
    (w : List (List String)) (re : Option RunError) :
    (finishRun rid s st w re).raised = re := rfl

lemma finishRun_warnings (rid : Option String) (s : Bool) (st : EState)
    (w : List (List String)) (re : Option RunError) :
    (finishRun rid s st w re).warnings = w := rfl

lemma finishRun_analytics (rid : Option String) (s : Bool) (st : EState)
    (w : List (List String)) (re : Option RunError) :
    (finishRun rid s st w re).analytics = [trackSearchQuery st.ctx rid s] := rfl

lemma finishRun_events_some (r : String) (s : Bool) (st : EState)
    (w : List (List String)) (re : Option RunError) :
    (finishRun (some r) s st w re).events
      = st.events ++ [(⟨.done, st.gseq + 1, none, none⟩ : Event)] := rfl

lemma startState_executed (config : SearchConfig) (rid : Option String) :
    (startState config rid).executed = [] := by
  cases rid <;> rfl

lemma startState_events_some (config : SearchConfig) (r : String) :
    (startState config (some r)).events
      = [{ type := .start, seq := 1, op := none, op_seq := none }] := rfl

lemma startState_events_none (config : SearchConfig) :
    (startState config none).events = [] := rfl

lemma startState_ctx_timings (config : SearchConfig) (rid : Option String) :
    (startState config rid).ctx.timings = [] := by
  cases rid <;> rfl

lemma startState_ctx_errors (config : SearchConfig) (rid : Option String) :
    (startState config rid).ctx.errors = [] := by
  cases rid <;> rfl

lemma startState_ctx_raw (config : SearchConfig) (rid : Option String) :
    (startState config rid).ctx.raw_results = none := by
  cases rid <;> rfl

lemma startState_ctx_final (config : SearchConfig) (rid : Option String) :
    (startState config rid).ctx.final_results = none := by
  cases rid <;> rfl

lemma startState_seqOk (config : SearchConfig) (rid : Option String) :
    SeqOk (startState config rid) := by
  cases rid <;> exact ⟨rfl, rfl⟩

lemma startState_typesOk (config : SearchConfig) (rid : Option String) :
    TypesOk (startState config rid) := by
  cases rid with
  | none =>
    intro e he
    rw [startState_events_none] at he
    simp at he
  | some r =>
    intro e he
    rw [startState_events_some] at he
    simp only [List.mem_singleton] at he
    subst he
    exact ⟨by decide, by decide⟩

lemma startState_traceOk (config : SearchConfig) (r : String) :
    TraceOK (startState config (some r)) none := by
  refine ⟨fun n hn => Option.noConfusion hn, ?_, fun k _ _ => rfl⟩
  intro k hk
  rw [startState_executed] at hk
  simp at hk

lemma startState_keysOk (config : SearchConfig) (rid : Option String) :
    KeysOk (startState config rid) := by
  cases rid <;> rfl

lemma startState_noResults (config : SearchConfig) (rid : Option String) :
    NoResults (startState config rid) := by
  cases rid <;> exact ⟨rfl, rfl⟩

lemma startState_headStart (config : SearchConfig) (r : String) :
    HeadStart (startState config (some r)) :=
  ⟨[], rfl⟩

lemma finalizeContext_final (c : Ctx) :
    (finalizeContext c).final_results
      = some (match c.final_results with
              | some l => l
              | none => c.raw_results.getD []) := by
  rcases c with ⟨q, ri, sr, cs, t, er, raw, fin, es⟩
  cases fin <;> rfl

lemma finalizeContext_timings (c : Ctx) :
    (finalizeContext c).timings = c.timings := by
  rcases c with ⟨q, ri, sr, cs, t, er, raw, fin, es⟩
  cases fin <;> rfl

lemma finalizeContext_errors (c : Ctx) :
    (finalizeContext c).errors = c.errors := by
  rcases c with ⟨q, ri, sr, cs, t, er, raw, fin, es⟩
  cases fin <;> rfl

lemma finalizeContext_summary (c : Ctx) :
    (finalizeContext c).execution_summary
      = some { operations_executed := c.timings.length
               total_time_ms := (c.timings.map (fun p => p.2)).sum
               errors_count := c.errors.length } := by
  rcases c with ⟨q, ri, sr, cs, t, er, raw, fin, es⟩
  cases fin <;> rfl

lemma afterLoop_ctx (rid : Option String) (s : Bool) (w : List (List String))
    (st : EState) : (afterLoop rid s w st).ctx = finalizeContext st.ctx := by
  unfold afterLoop
  rw [finishRun_ctx, emitEvent_ctx, emitEvent_ctx]

lemma afterLoop_raised (rid : Option String) (s : Bool) (w : List (List String))
    (st : EState) : (afterLoop rid s w st).raised = none := rfl

lemma afterLoop_warnings (rid : Option String) (s : Bool) (w : List (List String))
    (st : EState) : (afterLoop rid s w st).warnings = w := rfl

lemma afterLoop_executedNames (rid : Option String) (s : Bool)
    (w : List (List String)) (st : EState) :
    (afterLoop rid s w st).executedNames = st.executed := by
  unfold afterLoop
  rw [finishRun_executedNames, emitEvent_executed, emitEvent_executed]

lemma afterLoop_analytics (rid : Option String) (s : Bool) (w : List (List String))
    (st : EState) :
    (afterLoop rid s w st).analytics
      = [trackSearchQuery (finalizeContext st.ctx) rid s] := by
  unfold afterLoop
  rw [finishRun_analytics, emitEvent_ctx, emitEvent_ctx]

/-! ### Case analysis on one `execute` call -/

lemma executeConfig_shape (config : SearchConfig) (rid : Option String) :
    (∃ st n m,
      schedLoop rid (planOperations config) (planOperations config).length
        (startState config rid) = .failed st n m ∧
      (extractOperationsFromConfig config).all Option.isSome = true ∧
      ∀ s, executeConfig config rid s = finishRun rid s st [] (some (.opError n m))) ∨
    (∃ st rem,
      schedLoop rid (planOperations config) (planOperations config).length
        (startState config rid) = .stuck st rem ∧
      (extractOperationsFromConfig config).all Option.isSome = true ∧
      ∀ s, executeConfig config rid s = afterLoop rid s [rem] st) ∨
    (∃ st,
      (schedLoop rid (planOperations config) (planOperations config).length
        (startState config rid) = .finished st ∨
       schedLoop rid (planOperations config) (planOperations config).length
        (startState config rid) = .fuelOut st) ∧
      (extractOperationsFromConfig config).all Option.isSome = true ∧
      ∀ s, executeConfig config rid s = afterLoop rid s [] st) ∨
    ((extractOperationsFromConfig config).all Option.isSome = false ∧
      ∀ s, executeConfig config rid s
        = finishRun rid s (startState config rid) [] (some .attrError)) := by
  by_cases hall : (extractOperationsFromConfig config).all Option.isSome = true
  · cases hl : schedLoop rid (planOperations config) (planOperations config).length
        (startState config rid) with
    | failed st n m =>
      refine Or.inl ⟨st, n, m, rfl, hall, ?_⟩
      intro s
      simp only [executeConfig]
      rw [if_pos hall, hl]
    | stuck st rem =>
      refine Or.inr (Or.inl ⟨st, rem, rfl, hall, ?_⟩)
      intro s
      simp only [executeConfig]
      rw [if_pos hall, hl]
    | finished st =>
      refine Or.inr (Or.inr (Or.inl ⟨st, Or.inl rfl, hall, ?_⟩))
      intro s
      simp only [executeConfig]
      rw [if_pos hall, hl]
    | fuelOut st =>
      refine Or.inr (Or.inr (Or.inl ⟨st, Or.inr rfl, hall, ?_⟩))
      intro s
      simp only [executeConfig]
      rw [if_pos hall, hl]
  · refine Or.inr (Or.inr (Or.inr ⟨by simpa using hall, ?_⟩))
    intro s
    simp only [executeConfig]
    rw [if_neg hall]

lemma finishRun_last_done (r : String) (s : Bool) (st : EState)
    (w : List (List String)) (re : Option RunError) :
    ((finishRun (some r) s st w re).events.getLast?).map (fun e => e.type)
      = some .done := by
  rw [finishRun_events_some]
  simp

lemma afterLoop_last_done (r : String) (s : Bool) (w : List (List String))
    (st : EState) :
    ((afterLoop (some r) s w st).events.getLast?).map (fun e => e.type)
      = some .done := by
  unfold afterLoop
  exact finishRun_last_done r s _ w none

lemma finishRun_opTrace (r : String) (s : Bool) (st : EState)
    (w : List (List String)) (re : Option RunError) (n : String) :
    opTrace n (finishRun (some r) s st w re).events = opTrace n st.events := by
  rw [finishRun_events_some]
  exact opTrace_append_none n st.events _ rfl

lemma afterLoop_opTrace (r : String) (s : Bool) (w : List (List String))
    (st : EState) (n : String) :
    opTrace n (afterLoop (some r) s w st).events = opTrace n st.events := by
  unfold afterLoop
  rw [finishRun_opTrace,
    opTrace_emit_other _ _ _ _ _ (by simp),
    opTrace_emit_other _ _ _ _ _ (by simp)]

/-! ### The claims -/

lemma trackSearchQuery_singleton (c : Ctx) (rid : Option String) (s : Bool) :
    [trackSearchQuery c rid s].length = 1 ∧
    ∀ a ∈ [trackSearchQuery c rid s], a.event_name = "search_query" := by
  refine ⟨rfl, ?_⟩
  intro a ha
  simp only [List.mem_singleton] at ha
  subst ha
  rfl

/-- C8: every invocation of `execute` reaches the `finally` block and calls
`analytics.track_event` exactly once with event name `search_query` — on
the success path, the operator-failure path, the scheduler-deadlock path
and the missing-required-operator path alike. -/
theorem c8_analytics_exactly_once (config : SearchConfig) (rid : Option String)
    (sinkFails : Bool) :
    (executeConfig config rid sinkFails).analytics.length = 1 ∧
    ∀ a ∈ (executeConfig config rid sinkFails).analytics,
      a.event_name = "search_query" := by
  rcases executeConfig_shape config rid with
    ⟨st, n, m, hl, hall, he⟩ | ⟨st, rem, hl, hall, he⟩ | ⟨st, hl, hall, he⟩ | ⟨hall, he⟩
  · rw [he sinkFails, finishRun_analytics]
    exact trackSearchQuery_singleton _ _ _
  · rw [he sinkFails, afterLoop_analytics]
    exact trackSearchQuery_singleton _ _ _
  · rw [he sinkFails, afterLoop_analytics]
    exact trackSearchQuery_singleton _ _ _
  · rw [he sinkFails, finishRun_analytics]
    exact trackSearchQuery_singleton _ _ _

lemma trackSearchQuery_results_count (c : Ctx) (rid : Option String) (s : Bool) :
    ((trackSearchQuery c rid s).props.results_count.isSome = true ↔
      ∃ l, c.final_results = some l ∧ l ≠ []) ∧
    (trackSearchQuery c rid s).props.results_count ≠ some 0 := by
  have hrc : (trackSearchQuery c rid s).props.results_count
      = (match c.final_results with
        | some l => if l.isEmpty then none else some l.length
        | none => none) := rfl
  rw [hrc]
  rcases hf : c.final_results with _ | l
  · simp
  · by_cases he : l = []
    · subst he
      simp
    · have hie : l.isEmpty = false := by simpa using he
      simp only [hie, Bool.false_eq_true, if_false]
      constructor
      · simp only [Option.isSome_some, true_iff]
        exact ⟨l, rfl, he⟩
      · intro hcon
        injection hcon with hcon
        exact he (List.length_eq_zero.mp hcon)

/-- C10: in the analytics properties, `results_count` is present exactly
when the context's `final_results` is present and non-empty at termination
(the `if final_results:` truthiness test), and it is never `0`. -/
theorem c10_results_count_presence (config : SearchConfig) (rid : Option String)
    (sinkFails : Bool) :
    ∀ a ∈ (executeConfig config rid sinkFails).analytics,
      (a.props.results_count.isSome = true ↔
        ∃ l, (executeConfig config rid sinkFails).ctx.final_results = some l ∧
          l ≠ []) ∧
      a.props.results_count ≠ some 0 := by
  intro a ha
  rcases executeConfig_shape config rid with
    ⟨st, n, m, hl, hall, he⟩ | ⟨st, rem, hl, hall, he⟩ | ⟨st, hl, hall, he⟩ | ⟨hall, he⟩
  · rw [he sinkFails] at ha ⊢
    rw [finishRun_analytics] at ha
    simp only [List.mem_singleton] at ha
    subst ha
    rw [finishRun_ctx]
    exact trackSearchQuery_results_count st.ctx rid sinkFails
  · rw [he sinkFails] at ha ⊢
    rw [afterLoop_analytics] at ha
    simp only [List.mem_singleton] at ha
    subst ha
    rw [afterLoop_ctx]
    exact trackSearchQuery_results_count (finalizeContext st.ctx) rid sinkFails
  · rw [he sinkFails] at ha ⊢
    rw [afterLoop_analytics] at ha
    simp only [List.mem_singleton] at ha
    subst ha
    rw [afterLoop_ctx]
    exact trackSearchQuery_results_count (finalizeContext st.ctx) rid sinkFails
  · rw [he sinkFails] at ha ⊢
    rw [finishRun_analytics] at ha
    simp only [List.mem_singleton] at ha
    subst ha
    rw [finishRun_ctx]
    exact trackSearchQuery_results_count (startState config rid).ctx rid sinkFails

/-- C10 witness: on the minimal two-operator run, which produces two
results, `results_count` is present (and not `0`). -/
theorem c10_witness :
    ((executeConfig cfgMin (some "r1") false).analytics.headI.props.results_count.isSome
        = true ↔
      ∃ l, (executeConfig cfgMin (some "r1") false).ctx.final_results = some l ∧
        l ≠ []) ∧
    (executeConfig cfgMin (some "r1") false).analytics.headI.props.results_count
      ≠ some 0 :=
  c10_results_count_presence cfgMin (some "r1") false
    (executeConfig cfgMin (some "r1") false).analytics.headI (by decide)

/-- C9: a failure of the analytics sink never changes the user-visible
outcome of `execute`: the final context, the published events, the
re-raised exception, the warnings and the executed set are identical with
a failing and a working sink, and on a successful streaming run the `done`
event is still the last published event.  (The drop happens inside the
analytics service, per the spec; the executor itself does not guard the
call.) -/
theorem c9_sink_failure_harmless (config : SearchConfig) (rid : Option String) :
    (executeConfig config rid true).ctx = (executeConfig config rid false).ctx ∧
    (executeConfig config rid true).events
      = (executeConfig config rid false).events ∧
    (executeConfig config rid true).raised
      = (executeConfig config rid false).raised ∧
    (executeConfig config rid true).warnings
      = (executeConfig config rid false).warnings ∧
    (executeConfig config rid true).executedNames
      = (executeConfig config rid false).executedNames ∧
    (∀ r, rid = some r → (executeConfig config rid true).raised = none →
      ((executeConfig config rid true).events.getLast?).map (fun e => e.type)
        = some .done) := by
  rcases executeConfig_shape config rid with
    ⟨st, n, m, hl, hall, he⟩ | ⟨st, rem, hl, hall, he⟩ | ⟨st, hl, hall, he⟩ | ⟨hall, he⟩
  · rw [he true, he false]
    refine ⟨rfl, rfl, rfl, rfl, rfl, ?_⟩
    intro r hr hnone
    rw [finishRun_raised] at hnone
    exact absurd hnone (by simp)
  · rw [he true, he false]
    refine ⟨rfl, rfl, rfl, rfl, rfl, ?_⟩
    intro r hr _
    subst hr
    exact afterLoop_last_done r true [rem] st
  · rw [he true, he false]
    refine ⟨rfl, rfl, rfl, rfl, rfl, ?_⟩
    intro r hr _
    subst hr
    exact afterLoop_last_done r true [] st
  · rw [he true, he false]
    refine ⟨rfl, rfl, rfl, rfl, rfl, ?_⟩
    intro r hr hnone
    rw [finishRun_raised] at hnone
    exact absurd hnone (by simp)

lemma finishRun_c1 (r : String) (s : Bool) (st : EState)
    (w : List (List String)) (re : Option RunError)
    (hS : SeqOk st) (hH : HeadStart st) :
    (finishRun (some r) s st w re).events.map (fun e => e.seq)
      = List.range' 1 (finishRun (some r) s st w re).events.length ∧
    ((finishRun (some r) s st w re).events.head?).map (fun e => e.type)
      = some .start ∧
    ((finishRun (some r) s st w re).events.getLast?).map (fun e => e.type)
      = some .done := by
  have hS2 := seqOk_emit (some r) .done none hS
  have hH2 := headStart_emit (some r) .done none st hH
  refine ⟨hS2.1, ?_, finishRun_last_done r s st w re⟩
  obtain ⟨t, ht⟩ := hH2
  show ((emitEvent (some r) .done none st).events.head?).map (fun e => e.type)
    = some .start
  rw [ht]
  rfl

lemma afterLoop_c1 (r : String) (s : Bool) (w : List (List String)) (st : EState)
    (hS : SeqOk st) (hH : HeadStart st) :
    (afterLoop (some r) s w st).events.map (fun e => e.seq)
      = List.range' 1 (afterLoop (some r) s w st).events.length ∧
    ((afterLoop (some r) s w st).events.head?).map (fun e => e.type)
      = some .start ∧
    ((afterLoop (some r) s w st).events.getLast?).map (fun e => e.type)
      = some .done := by
  have hS2 : SeqOk { st with ctx := finalizeContext st.ctx } := hS
  have hH2 : HeadStart { st with ctx := finalizeContext st.ctx } := hH
  have hS3 := seqOk_emit (some r) .results none hS2
  have hS4 := seqOk_emit (some r) .summary none hS3
  have hH3 := headStart_emit (some r) .results none _ hH2
  have hH4 := headStart_emit (some r) .summary none _ hH3
  exact finishRun_c1 r s _ w none hS4 hH4

/-- C1: with a request id provided, the published event sequence starts
with the `start` frame, ends with the `done` frame, and its `seq` values
are exactly `1, 2, …, N` — dense and strictly increasing from 1 — on every
execution path (success, operator failure, deadlock, missing required
operator). -/
theorem c1_stream_shape (config : SearchConfig) (r : String) (sinkFails : Bool) :
    (executeConfig config (some r) sinkFails).events.map (fun e => e.seq)
      = List.range' 1 (executeConfig config (some r) sinkFails).events.length ∧
    ((executeConfig config (some r) sinkFails).events.head?).map (fun e => e.type)
      = some .start ∧
    ((executeConfig config (some r) sinkFails).events.getLast?).map
        (fun e => e.type)
      = some .done := by
  have hSl := schedLoop_preserve_ev (some r) (planOperations config) SeqOk
    (fun st c ex h => h)
    (fun ty opName st _ h => seqOk_emit _ _ _ h)
    (planOperations config).length (startState config (some r))
    (startState_seqOk config (some r))
  have hHl := schedLoop_preserve_ev (some r) (planOperations config) HeadStart
    (fun st c ex h => h)
    (fun ty opName st _ h => headStart_emit _ _ _ _ h)
    (planOperations config).length (startState config (some r))
    (startState_headStart config r)
  rcases executeConfig_shape config (some r) with
    ⟨st, n, m, hl, hall, he⟩ | ⟨st, rem, hl, hall, he⟩ | ⟨st, hl, hall, he⟩ |
    ⟨hall, he⟩
  · rw [hl] at hSl hHl
    rw [he sinkFails]
    exact finishRun_c1 r sinkFails st [] _ hSl hHl
  · rw [hl] at hSl hHl
    rw [he sinkFails]
    exact afterLoop_c1 r sinkFails [rem] st hSl hHl
  · rcases hl with hl | hl <;>
    · rw [hl] at hSl hHl
      rw [he sinkFails]
      exact afterLoop_c1 r sinkFails [] st hSl hHl
  · rw [he sinkFails]
    exact finishRun_c1 r sinkFails _ [] _ (startState_seqOk config (some r))
      (startState_headStart config r)

lemma extract_missing_required (config : SearchConfig)
    (hmiss : config.embedding = none ∨ config.vector_search = none) :
    (extractOperationsFromConfig config).all Option.isSome = false := by
  rcases hmiss with hm | hm <;>
  · unfold extractOperationsFromConfig
    rw [hm]
    simp [List.all_append]

/-- C4 counterexample: with the required `embedding` slot null and a
request id, `execute` does raise, but only after the `start` event has
been published (the trace is `start, done`), contradicting the claim that
the raise happens before any `start` event. -/
theorem c4_counterexample :
    (executeConfig cfgMissingEmbedding (some "r1") false).raised.isSome = true ∧
    (executeConfig cfgMissingEmbedding (some "r1") false).events.map
        (fun e => e.type)
      = [.start, .done] := by
  constructor
  · rfl
  · rfl

/-- C4 (amended): when a required operator slot (`embedding` or
`vector_search`) is null, `_extract_operations_from_config` does not raise;
`execute` emits `start`, then hits an attribute error in the first
`_find_ready_operations` call — before any operator runs — and the
`finally` block still emits `done`, so the published trace is
`start, done` and the error propagates to the caller. -/
theorem c4_missing_required_after_start (config : SearchConfig) (r : String)
    (sinkFails : Bool)
    (hmiss : config.embedding = none ∨ config.vector_search = none) :
    (executeConfig config (some r) sinkFails).raised = some .attrError ∧
    (executeConfig config (some r) sinkFails).events.map (fun e => e.type)
      = [.start, .done] ∧
    (executeConfig config (some r) sinkFails).executedNames = [] ∧
    (executeConfig config (some r) sinkFails).ctx.timings = [] := by
  have hall := extract_missing_required config hmiss
  have he : executeConfig config (some r) sinkFails
      = finishRun (some r) sinkFails (startState config (some r)) []
          (some .attrError) := by
    simp only [executeConfig]
    rw [if_neg (by rw [hall]; simp)]
  rw [he]
  refine ⟨rfl, ?_, ?_, ?_⟩
  · rw [finishRun_events_some, startState_events_some]
    rfl
  · rw [finishRun_executedNames, startState_executed]
  · rw [finishRun_ctx, startState_ctx_timings]

/-- C4 witness: the amended statement at the concrete config with a null
`embedding` slot. -/
theorem c4_witness :
    (cfgMissingEmbedding.embedding = none ∨
      cfgMissingEmbedding.vector_search = none) ∧
    ((executeConfig cfgMissingEmbedding (some "r1") false).raised
        = some .attrError ∧
     (executeConfig cfgMissingEmbedding (some "r1") false).events.map
         (fun e => e.type)
       = [.start, .done] ∧
     (executeConfig cfgMissingEmbedding (some "r1") false).executedNames = [] ∧
     (executeConfig cfgMissingEmbedding (some "r1") false).ctx.timings = []) :=
  ⟨Or.inl rfl,
   c4_missing_required_after_start cfgMissingEmbedding "r1" false (Or.inl rfl)⟩

/-- C5: `_find_ready_operations` returns exactly the not-yet-executed
operators whose every dependency is either already executed or absent from
the plan, and the returned list is a sublist of the plan (plan order). -/
theorem c5_find_ready_characterization (operations : List Operation)
    (executed : List String) :
    (findReadyOperations operations executed).Sublist operations ∧
    ∀ op, op ∈ findReadyOperations operations executed ↔
      op ∈ operations ∧ op.name ∉ executed ∧
        ∀ dep ∈ op.depends_on,
          dep ∈ executed ∨ ∀ q ∈ operations, q.name ≠ dep := by
  refine ⟨List.filter_sublist operations, ?_⟩
  intro op
  unfold findReadyOperations
  rw [List.mem_filter]
  constructor
  · rintro ⟨hmem, hcond⟩
    simp only [Bool.and_eq_true, Bool.not_eq_true', List.all_eq_true,
      Bool.or_eq_true] at hcond
    obtain ⟨hnotex, hdeps⟩ := hcond
    refine ⟨hmem, by simpa using hnotex, ?_⟩
    intro dep hdep
    rcases hdeps dep hdep with hc | hc
    · left
      simpa using hc
    · right
      intro q hq hqe
      have hex : operationExists operations dep = true := by
        simp only [operationExists, List.any_eq_true, beq_iff_eq]
        exact ⟨q, hq, hqe⟩
      rw [hex] at hc
      exact Bool.noConfusion hc
  · rintro ⟨hmem, hnotex, hdeps⟩
    refine ⟨hmem, ?_⟩
    simp only [Bool.and_eq_true, Bool.not_eq_true', List.all_eq_true,
      Bool.or_eq_true]
    refine ⟨by simpa using hnotex, ?_⟩
    intro dep hdep
    rcases hdeps dep hdep with hc | hc
    · left
      simpa using hc
    · right
      rw [Bool.eq_false_iff]
      intro hex
      simp only [operationExists, List.any_eq_true, beq_iff_eq] at hex
      obtain ⟨q, hq, hqe⟩ := hex
      exact hc q hq hqe

/-- C7: `_finalize_context` defaults `final_results` to `raw_results`
(itself defaulting to the empty list) only when the key is absent, and
writes `execution_summary` with `operations_executed = len(timings)`,
`total_time_ms = sum(timings.values())`, `errors_count = len(errors)`;
consequently, on every run of `execute` that returns normally the final
context carries a present `final_results` and that summary. -/
theorem c7_finalization :
    (∀ c : Ctx,
      (finalizeContext c).final_results
        = some (match c.final_results with
                | some l => l
                | none => c.raw_results.getD []) ∧
      (finalizeContext c).execution_summary
        = some { operations_executed := c.timings.length
                 total_time_ms := (c.timings.map (fun p => p.2)).sum
                 errors_count := c.errors.length }) ∧
    (∀ (config : SearchConfig) (rid : Option String) (sinkFails : Bool),
      (executeConfig config rid sinkFails).raised = none →
      (executeConfig config rid sinkFails).ctx.final_results.isSome = true ∧
      (executeConfig config rid sinkFails).ctx.execution_summary
        = some { operations_executed :=
                   (executeConfig config rid sinkFails).ctx.timings.length
                 total_time_ms :=
                   ((executeConfig config rid sinkFails).ctx.timings.map
                     (fun p => p.2)).sum
                 errors_count :=
                   (executeConfig config rid sinkFails).ctx.errors.length }) := by
  constructor
  · intro c
    exact ⟨finalizeContext_final c, finalizeContext_summary c⟩
  · intro config rid s hnone
    rcases executeConfig_shape config rid with
      ⟨st, n, m, hl, hall, he⟩ | ⟨st, rem, hl, hall, he⟩ | ⟨st, hl, hall, he⟩ |
      ⟨hall, he⟩
    · rw [he s, finishRun_raised] at hnone
      exact absurd hnone (by simp)
    · rw [he s, afterLoop_ctx]
      constructor
      · rw [finalizeContext_final]
        rfl
      · rw [finalizeContext_summary, finalizeContext_timings,
          finalizeContext_errors]
    · rw [he s, afterLoop_ctx]
      constructor
      · rw [finalizeContext_final]
        rfl
      · rw [finalizeContext_summary, finalizeContext_timings,
          finalizeContext_errors]
    · rw [he s, finishRun_raised] at hnone
      exact absurd hnone (by simp)

/-- C7 witness: the minimal two-operator run returns normally with a
present `final_results` and the summary computed from its timings and
errors. -/
theorem c7_witness :
    (executeConfig cfgMin (some "r1") false).ctx.final_results.isSome = true ∧
    (executeConfig cfgMin (some "r1") false).ctx.execution_summary
      = some { operations_executed :=
                 (executeConfig cfgMin (some "r1") false).ctx.timings.length
               total_time_ms :=
                 ((executeConfig cfgMin (some "r1") false).ctx.timings.map
                   (fun p => p.2)).sum
               errors_count :=
                 (executeConfig cfgMin (some "r1") false).ctx.errors.length } :=
  c7_finalization.2 cfgMin (some "r1") false (by rfl)

/-- C2: during a streaming run, each operator name's event subsequence is
either empty (the operator never began), or exactly
`operator_start, operator_end` (it completed), or exactly
`operator_start, error` (it raised) — never both terminators and no other
per-operator transitions; every executed operator has the completed shape
and the operator whose exception is re-raised has the error shape. -/
theorem c2_operator_transitions (config : SearchConfig) (r : String)
    (sinkFails : Bool) (n : String) (hnodup : (planNames config).Nodup) :
    (opTrace n (executeConfig config (some r) sinkFails).events = [] ∨
     opTrace n (executeConfig config (some r) sinkFails).events
       = [.operator_start, .operator_end] ∨
     opTrace n (executeConfig config (some r) sinkFails).events
       = [.operator_start, .error]) ∧
    (n ∈ (executeConfig config (some r) sinkFails).executedNames →
      opTrace n (executeConfig config (some r) sinkFails).events
        = [.operator_start, .operator_end]) ∧
    (∀ m, (executeConfig config (some r) sinkFails).raised
        = some (.opError n m) →
      opTrace n (executeConfig config (some r) sinkFails).events
        = [.operator_start, .error]) := by
  have hT := schedLoop_trace r (planOperations config) hnodup
    (planOperations config).length (startState config (some r))
    (startState_traceOk config r)
  rcases executeConfig_shape config (some r) with
    ⟨st, n0, m0, hl, hall, he⟩ | ⟨st, rem, hl, hall, he⟩ | ⟨st, hl, hall, he⟩ |
    ⟨hall, he⟩
  · rw [hl] at hT
    obtain ⟨hT1, hT2, hT3⟩ := hT
    have hoe : opTrace n (executeConfig config (some r) sinkFails).events
        = opTrace n st.events := by
      rw [he sinkFails]
      exact finishRun_opTrace r sinkFails st [] _ n
    have hexe : (executeConfig config (some r) sinkFails).executedNames
        = st.executed := by
      rw [he sinkFails]
      exact finishRun_executedNames _ _ _ _ _
    have hra : (executeConfig config (some r) sinkFails).raised
        = some (.opError n0 m0) := by
      rw [he sinkFails]
      rfl
    refine ⟨?_, ?_, ?_⟩
    · rw [hoe]
      by_cases hn : n = n0
      · subst hn
        exact Or.inr (Or.inr (hT1 n rfl).2)
      · by_cases hmem : n ∈ st.executed
        · exact Or.inr (Or.inl (hT2 n hmem))
        · refine Or.inl (hT3 n hmem ?_)
          intro hc
          injection hc with hc
          exact hn hc.symm
    · intro hmem
      rw [hexe] at hmem
      rw [hoe]
      exact hT2 n hmem
    · intro m hm
      rw [hra] at hm
      injection hm with hm
      injection hm with hm1 hm2
      subst hm1
      rw [hoe]
      exact (hT1 _ rfl).2
  · rw [hl] at hT
    obtain ⟨hT1, hT2, hT3⟩ := hT
    have hoe : opTrace n (executeConfig config (some r) sinkFails).events
        = opTrace n st.events := by
      rw [he sinkFails]
      exact afterLoop_opTrace r sinkFails [rem] st n
    have hexe : (executeConfig config (some r) sinkFails).executedNames
        = st.executed := by
      rw [he sinkFails]
      exact afterLoop_executedNames _ _ _ _
    refine ⟨?_, ?_, ?_⟩
    · rw [hoe]
      by_cases hmem : n ∈ st.executed
      · exact Or.inr (Or.inl (hT2 n hmem))
      · exact Or.inl (hT3 n hmem (by simp))
    · intro hmem
      rw [hexe] at hmem
      rw [hoe]
      exact hT2 n hmem
    · intro m hm
      rw [he sinkFails, afterLoop_raised] at hm
      exact Option.noConfusion hm
  · rcases hl with hl | hl <;>
    · rw [hl] at hT
      obtain ⟨hT1, hT2, hT3⟩ := hT
      have hoe : opTrace n (executeConfig config (some r) sinkFails).events
          = opTrace n st.events := by
        rw [he sinkFails]
        exact afterLoop_opTrace r sinkFails [] st n
      have hexe : (executeConfig config (some r) sinkFails).executedNames
          = st.executed := by
        rw [he sinkFails]
        exact afterLoop_executedNames _ _ _ _
      refine ⟨?_, ?_, ?_⟩
      · rw [hoe]
        by_cases hmem : n ∈ st.executed
        · exact Or.inr (Or.inl (hT2 n hmem))
        · exact Or.inl (hT3 n hmem (by simp))
      · intro hmem
        rw [hexe] at hmem
        rw [hoe]
        exact hT2 n hmem
      · intro m hm
        rw [he sinkFails, afterLoop_raised] at hm
        exact Option.noConfusion hm
  · have hoe : opTrace n (executeConfig config (some r) sinkFails).events
        = opTrace n (startState config (some r)).events := by
      rw [he sinkFails]
      exact finishRun_opTrace r sinkFails _ [] _ n
    have h0 : opTrace n (startState config (some r)).events = [] := rfl
    refine ⟨Or.inl (by rw [hoe, h0]), ?_, ?_⟩
    · intro hmem
      rw [he sinkFails, finishRun_executedNames, startState_executed] at hmem
      simp at hmem
    · intro m hm
      rw [he sinkFails, finishRun_raised] at hm
      injection hm with hm
      exact RunError.noConfusion hm

/-- C2 witness: in the minimal run, the completed `embedding` operator
shows the `operator_start, operator_end` shape. -/
theorem c2_witness :
    (planNames cfgMin).Nodup ∧
    ((opTrace "embedding" (executeConfig cfgMin (some "r1") false).events = [] ∨
      opTrace "embedding" (executeConfig cfgMin (some "r1") false).events
        = [.operator_start, .operator_end] ∨
      opTrace "embedding" (executeConfig cfgMin (some "r1") false).events
        = [.operator_start, .error]) ∧
     ("embedding" ∈ (executeConfig cfgMin (some "r1") false).executedNames →
       opTrace "embedding" (executeConfig cfgMin (some "r1") false).events
         = [.operator_start, .operator_end]) ∧
     (∀ m, (executeConfig cfgMin (some "r1") false).raised
         = some (.opError "embedding" m) →
       opTrace "embedding" (executeConfig cfgMin (some "r1") false).events
         = [.operator_start, .error])) :=
  ⟨by decide, c2_operator_transitions cfgMin "r1" false "embedding" (by decide)⟩

lemma emit_lastEvent (r : String) (ty : EventType) (n : String) (st : EState) :
    ∃ e, (emitEvent (some r) ty (some n) st).events.getLast? = some e ∧
      e.op = some n ∧ e.type = ty := by
  obtain ⟨osq, hev⟩ := emitEvent_some_events r ty (some n) st
  refine ⟨⟨ty, st.gseq + 1, some n, osq⟩, ?_, rfl, rfl⟩
  rw [hev]
  simp

lemma runBatch_error_lastEvent (r : String) :
    ∀ (batch : List Operation) (st st' : EState) (n m : String),
    runBatch (some r) batch st = .error (st', n, m) →
    ∃ e, st'.events.getLast? = some e ∧ e.op = some n ∧ e.type = .error := by
  intro batch
  induction batch with
  | nil =>
    intro st st' n m h
    exact Except.noConfusion h
  | cons op rest ih =>
    intro st st' n m h
    cases hrun : op.run (emitEvent (some r) .operator_start (some op.name) st).ctx with
    | mk ctx1 res =>
      cases res with
      | none =>
        rw [runBatch_cons_ok (some r) op rest st ctx1 hrun] at h
        exact ih _ _ _ _ h
      | some msg =>
        rw [runBatch_cons_err (some r) op rest st ctx1 msg hrun] at h
        injection h with h1
        rw [Prod.mk.injEq, Prod.mk.injEq] at h1
        obtain ⟨h2, h3, h4⟩ := h1
        subst h3
        subst h4
        rw [← h2]
        exact emit_lastEvent r .error op.name _

lemma schedLoop_failed_lastEvent (r : String) (ops : List Operation) :
    ∀ (fuel : Nat) (st st' : EState) (n m : String),
    schedLoop (some r) ops fuel st = .failed st' n m →
    ∃ e, st'.events.getLast? = some e ∧ e.op = some n ∧ e.type = .error := by
  intro fuel
  induction fuel with
  | zero =>
    intro st st' n m h
    rw [schedLoop_zero] at h
    by_cases hcond : st.executed.length < ops.length
    · rw [if_pos hcond] at h
      exact LoopOut.noConfusion h
    · rw [if_neg hcond] at h
      exact LoopOut.noConfusion h
  | succ fuel ih =>
    intro st st' n m h
    by_cases hcond : st.executed.length < ops.length
    · cases hready : findReadyOperations ops st.executed with
      | nil =>
        rw [schedLoop_succ_nil (some r) ops fuel st hcond hready] at h
        exact LoopOut.noConfusion h
      | cons op rest =>
        rw [schedLoop_succ_cons (some r) ops fuel st op rest hcond hready] at h
        cases hrb : runBatch (some r) (op :: rest) st with
        | ok st2 =>
          rw [hrb] at h
          exact ih st2 st' n m h
        | error e =>
          obtain ⟨st2, n2, m2⟩ := e
          rw [hrb] at h
          injection h with h1 h2 h3
          subst h1
          subst h2
          subst h3
          exact runBatch_error_lastEvent r (op :: rest) st _ _ _ hrb
    · rw [schedLoop_succ_ge (some r) ops fuel st hcond] at h
      exact LoopOut.noConfusion h

/-- C3: when an operator raises during a streaming run, `execute` appends
`{operation, error}` as the last entry of the context's `errors` list,
publishes an `error` event carrying that operator's name, publishes no
`results` and no `summary` event, still publishes `done` last and still
records the analytics call exactly once, and the exception reaches the
caller (`raised` carries the operator name and message). -/
theorem c3_operator_failure (config : SearchConfig) (r : String)
    (sinkFails : Bool) (n m : String)
    (hra : (executeConfig config (some r) sinkFails).raised
      = some (.opError n m)) :
    (executeConfig config (some r) sinkFails).ctx.errors ≠ [] ∧
    (executeConfig config (some r) sinkFails).ctx.errors.getLast? = some (n, m) ∧
    (∃ e ∈ (executeConfig config (some r) sinkFails).events,
      e.op = some n ∧ e.type = .error) ∧
    (∀ e ∈ (executeConfig config (some r) sinkFails).events,
      e.type ≠ .results ∧ e.type ≠ .summary) ∧
    ((executeConfig config (some r) sinkFails).events.getLast?).map
        (fun e => e.type)
      = some .done ∧
    (executeConfig config (some r) sinkFails).analytics.length = 1 := by
  rcases executeConfig_shape config (some r) with
    ⟨st, n0, m0, hl, hall, he⟩ | ⟨st, rem, hl, hall, he⟩ | ⟨st, hl, hall, he⟩ |
    ⟨hall, he⟩
  · have hra' := hra
    rw [he sinkFails, finishRun_raised] at hra'
    injection hra' with hra'
    injection hra' with hn hm
    subst hn
    subst hm
    have hgl := schedLoop_failed_getLast (some r) (planOperations config)
      (planOperations config).length _ _ _ _ hl
    have hle := schedLoop_failed_lastEvent r (planOperations config)
      (planOperations config).length _ _ _ _ hl
    have hTy := schedLoop_preserve_ev (some r) (planOperations config) TypesOk
      (fun st c ex h => h)
      (fun ty opName st hty h => typesOk_emit _ _
        (by rcases hty with rfl | rfl | rfl <;> decide)
        (by rcases hty with rfl | rfl | rfl <;> decide) h)
      (planOperations config).length (startState config (some r))
      (startState_typesOk config (some r))
    rw [hl] at hTy
    rw [he sinkFails]
    refine ⟨?_, ?_, ?_, ?_, ?_, ?_⟩
    · rw [finishRun_ctx]
      intro hnil
      rw [hnil] at hgl
      exact Option.noConfusion hgl
    · rw [finishRun_ctx]
      exact hgl
    · obtain ⟨e, hlast, hop, hty⟩ := hle
      refine ⟨e, ?_, hop, hty⟩
      rw [finishRun_events_some, List.mem_append]
      exact Or.inl (List.mem_of_mem_getLast? hlast)
    · intro e hee
      rw [finishRun_events_some, List.mem_append] at hee
      rcases hee with hee | hee
      · exact hTy e hee
      · simp only [List.mem_singleton] at hee
        subst hee
        exact ⟨fun hcon => EventType.noConfusion hcon,
               fun hcon => EventType.noConfusion hcon⟩
    · exact finishRun_last_done r sinkFails st [] _
    · rw [finishRun_analytics]
      rfl
  · rw [he sinkFails, afterLoop_raised] at hra
    exact Option.noConfusion hra
  · rw [he sinkFails, afterLoop_raised] at hra
    exact Option.noConfusion hra
  · rw [he sinkFails, finishRun_raised] at hra
    injection hra with hra
    exact RunError.noConfusion hra

/-- C3 witness: the concrete run whose retrieval operator raises `boom`
satisfies all conclusions. -/
theorem c3_witness :
    (executeConfig cfgBoom (some "r1") false).raised
      = some (.opError "vector_search" "boom") ∧
    ((executeConfig cfgBoom (some "r1") false).ctx.errors ≠ [] ∧
     (executeConfig cfgBoom (some "r1") false).ctx.errors.getLast?
       = some ("vector_search", "boom") ∧
     (∃ e ∈ (executeConfig cfgBoom (some "r1") false).events,
       e.op = some "vector_search" ∧ e.type = .error) ∧
     (∀ e ∈ (executeConfig cfgBoom (some "r1") false).events,
       e.type ≠ .results ∧ e.type ≠ .summary) ∧
     ((executeConfig cfgBoom (some "r1") false).events.getLast?).map
         (fun e => e.type)
       = some .done ∧
     (executeConfig cfgBoom (some "r1") false).analytics.length = 1) :=
  ⟨by decide,
   c3_operator_failure cfgBoom "r1" false "vector_search" "boom" (by decide)⟩

lemma extract_all_isSome (config : SearchConfig)
    (hemb : config.embedding.isSome = true)
    (hvs : config.vector_search.isSome = true) :
    (extractOperationsFromConfig config).all Option.isSome = true := by
  rcases config with ⟨q1, l1, o1, s1, s2, s3, s4, s5, s6, s7, s8⟩
  obtain ⟨eop, rfl⟩ := Option.isSome_iff_exists.mp hemb
  obtain ⟨vop, rfl⟩ := Option.isSome_iff_exists.mp hvs
  cases s1 <;> cases s2 <;> cases s3 <;> cases s6 <;> cases s7 <;> cases s8 <;> rfl

/-- C6: with both required operators present and operators that neither
raise nor write results/timings of their own, `execute` always returns
normally; when the scheduler stalls with unexecuted operators left, the
warning names exactly the remaining operators (in plan order), and with no
stall no warning is logged; `final_results` defaults to the empty list and
`execution_summary.operations_executed` equals the number of operators
that completed (`0` when none did). -/
theorem c6_deadlock_semantics (config : SearchConfig) (rid : Option String)
    (sinkFails : Bool)
    (hemb : config.embedding.isSome = true)
    (hvs : config.vector_search.isSome = true)
    (hops : ∀ op ∈ planOperations config, ∀ c : Ctx,
      ((op.run c).1).timings = c.timings ∧
      ((op.run c).1).raw_results = c.raw_results ∧
      ((op.run c).1).final_results = c.final_results ∧
      (op.run c).2 = none) :
    (executeConfig config rid sinkFails).raised = none ∧
    (executeConfig config rid sinkFails).ctx.final_results = some [] ∧
    ((executeConfig config rid sinkFails).ctx.execution_summary).map
        (fun es => es.operations_executed)
      = some (executeConfig config rid sinkFails).executedNames.length ∧
    ((executeConfig config rid sinkFails).executedNames.length
        < (planOperations config).length →
      (executeConfig config rid sinkFails).warnings
        = [remainingNames (planOperations config)
            (executeConfig config rid sinkFails).executedNames]) ∧
    ((planOperations config).length
        ≤ (executeConfig config rid sinkFails).executedNames.length →
      (executeConfig config rid sinkFails).warnings = []) := by
  have hall := extract_all_isSome config hemb hvs
  have hkr := schedLoop_keys_results rid (planOperations config)
    (fun op hop c => ⟨(hops op hop c).1, (hops op hop c).2.1, (hops op hop c).2.2.1⟩)
    (planOperations config).length (startState config rid)
    ⟨startState_keysOk config rid, startState_noResults config rid⟩
  have hnf := schedLoop_no_fuelOut rid (planOperations config)
    (planOperations config).length (startState config rid)
    (by rw [startState_executed]; simp)
  have hnofail := schedLoop_nofail rid (planOperations config)
    (fun op hop c => (hops op hop c).2.2.2)
  rcases executeConfig_shape config rid with
    ⟨st, n, m, hl, hall2, he⟩ | ⟨st, rem, hl, hall2, he⟩ | ⟨st, hl, hall2, he⟩ |
    ⟨hall2, he⟩
  · exact absurd hl (hnofail (planOperations config).length _ st n m)
  · rw [hl] at hkr
    have hK : KeysOk st := hkr.1
    have hNR : NoResults st := hkr.2
    have hspec := schedLoop_stuck_spec rid (planOperations config)
      (planOperations config).length _ st rem hl
    rw [he sinkFails]
    refine ⟨afterLoop_raised _ _ _ _, ?_, ?_, ?_, ?_⟩
    · rw [afterLoop_ctx, finalizeContext_final]
      simp [hNR.1, hNR.2]
    · rw [afterLoop_ctx, finalizeContext_summary, afterLoop_executedNames]
      have hlen : st.ctx.timings.length = st.executed.length := by
        rw [← hK, List.length_map]
      simp [hlen]
    · intro hlt
      rw [afterLoop_warnings, afterLoop_executedNames, hspec.1]
    · intro hge
      rw [afterLoop_executedNames] at hge
      have := hspec.2
      omega
  · rcases hl with hl | hl
    · rw [hl] at hkr
      have hK : KeysOk st := hkr.1
      have hNR : NoResults st := hkr.2
      have hfin := schedLoop_finished_executed rid (planOperations config)
        (planOperations config).length _ st hl
      rw [he sinkFails]
      refine ⟨afterLoop_raised _ _ _ _, ?_, ?_, ?_, ?_⟩
      · rw [afterLoop_ctx, finalizeContext_final]
        simp [hNR.1, hNR.2]
      · rw [afterLoop_ctx, finalizeContext_summary, afterLoop_executedNames]
        have hlen : st.ctx.timings.length = st.executed.length := by
          rw [← hK, List.length_map]
        simp [hlen]
      · intro hlt
        rw [afterLoop_executedNames] at hlt
        omega
      · intro _
        exact afterLoop_warnings _ _ _ _
    · exact absurd hl (hnf st)
  · rw [hall] at hall2
    exact Bool.noConfusion hall2

/-- C6 witness: the cyclic two-operator plan (scenario E): nothing
executes, the warning names both operators in plan order, the run returns
normally with empty `final_results` and `operations_executed = 0`. -/
theorem c6_witness :
    cfgCyclic.embedding.isSome = true ∧
    cfgCyclic.vector_search.isSome = true ∧
    ((executeConfig cfgCyclic (some "r1") false).raised = none ∧
     (executeConfig cfgCyclic (some "r1") false).ctx.final_results = some [] ∧
     ((executeConfig cfgCyclic (some "r1") false).ctx.execution_summary).map
         (fun es => es.operations_executed)
       = some (executeConfig cfgCyclic (some "r1") false).executedNames.length ∧
     ((executeConfig cfgCyclic (some "r1") false).executedNames.length
         < (planOperations cfgCyclic).length →
       (executeConfig cfgCyclic (some "r1") false).warnings
         = [remainingNames (planOperations cfgCyclic)
             (executeConfig cfgCyclic (some "r1") false).executedNames]) ∧
     ((planOperations cfgCyclic).length
         ≤ (executeConfig cfgCyclic (some "r1") false).executedNames.length →
       (executeConfig cfgCyclic (some "r1") false).warnings = [])) := by
  have hops : ∀ op ∈ planOperations cfgCyclic, ∀ c : Ctx,
      ((op.run c).1).timings = c.timings ∧
      ((op.run c).1).raw_results = c.raw_results ∧
      ((op.run c).1).final_results = c.final_results ∧
      (op.run c).2 = none := by
    intro op hop c
    have hp : planOperations cfgCyclic = [opCycA, opCycB] := rfl
    rw [hp] at hop
    simp only [List.mem_cons, List.not_mem_nil, or_false] at hop
    rcases hop with rfl | rfl <;> exact ⟨rfl, rfl, rfl, rfl⟩
  exact ⟨rfl, rfl,
    c6_deadlock_semantics cfgCyclic (some "r1") false rfl rfl hops⟩
